import Mathlib

/-! intfact: Fermat, Pollard rho and Pollard p-1 factorisation.

A shallow embedding of the Go programs `fermat.go`, `pollards_rho.go`,
`pollards_p_minus_1.go` and `parallel-fermat.go`.

* `*big.Int` values are `Int`; `Mod` / `Div` are the Euclidean `%` / `/` of `Int`,
  `Sqrt` is the floor square root (it panics on a negative argument).
* A function result that may be `nil` is an `Option`.
* The two `for` loops without a bound (`fermatFactorization`, `pollardsRho`) are
  run with a fuel counter: the outcome `Run.timeout` means the loop is still
  running when the fuel is spent, `Run.crash` is a runtime panic of `math/big`.
* The bounded loops (`pollardsPMinus1`, the parallel worker, the range loop of
  `main`) are total functions, by well-founded recursion on the distance to
  their bound.
-/

namespace Intfact

/-- Outcome of running a loop that need not terminate. -/
inductive Run (α : Type) where
  | timeout : Run α
  | crash : Run α
  | ret : α → Run α
  deriving DecidableEq, Repr

/-! ## pollards_rho.go -/

/-- The recursive `gcd` of `pollards_rho.go` and `pollards_p_minus_1.go`:
`if b == 0 { return a }; return gcd(b, a mod b)`. -/
def gcd (a b : Int) : Int :=
  if b = 0 then a else gcd b (a % b)
termination_by b.natAbs
decreasing_by
  rename_i h
  have h1 : 0 ≤ a % b := Int.emod_nonneg a h
  have h2 : a % b < |b| := Int.emod_lt a h
  rw [Int.abs_eq_natAbs] at h2
  omega

/-- The map `f(x) = (x*x + 1) mod n`; `Mod` panics when `n = 0`. -/
def f (x n : Int) : Option Int :=
  if n = 0 then none else some ((x * x + 1) % n)

/-- One pass through the body of the loop of `pollardsRho`, from `(x, y)`:
the new `x`, `y` and `d`, or `none` when `Mod` panics. -/
def rhoStep (n x y : Int) : Option (Int × Int × Int) :=
  match f x n with
  | none => none
  | some x1 =>
    match f y n with
    | none => none
    | some y1 =>
      match f y1 n with
      | none => none
      | some y2 => some (x1, y2, gcd |x1 - y2| n)

/-- The loop `for d == 1 { ... }` of `pollardsRho`, returning the final `d`. -/
def rhoLoop (n : Int) : Nat → Int → Int → Int → Run Int
  | 0, _, _, _ => Run.timeout
  | fuel + 1, x, y, d =>
    if d = 1 then
      match rhoStep n x y with
      | none => Run.crash
      | some (x1, y1, d1) => rhoLoop n fuel x1 y1 d1
    else Run.ret d

/-- The function `pollardsRho`: `none` is the `nil` result. -/
def pollardsRho (fuel : Nat) (n : Int) : Run (Option Int) :=
  match rhoLoop n fuel 2 2 1 with
  | Run.timeout => Run.timeout
  | Run.crash => Run.crash
  | Run.ret d => if d = n then Run.ret none else Run.ret (some d)

/-- The function `findFactors` of `pollards_rho.go`: `none` is `(nil, nil)`. -/
def rhoFindFactors (fuel : Nat) (n : Int) : Run (Option (Int × Int)) :=
  match pollardsRho fuel n with
  | Run.timeout => Run.timeout
  | Run.crash => Run.crash
  | Run.ret none => Run.ret none
  | Run.ret (some factor1) =>
    if factor1 = 0 then Run.crash else Run.ret (some (factor1, n / factor1))

/-- The verification test of `main` in `pollards_rho.go` and
`pollards_p_minus_1.go`: `factor1 * factor2 == n`. -/
def verificationTest (n : Int) (r : Int × Int) : Bool :=
  decide (r.1 * r.2 = n)

/-! The sequences of values taken by the variables of the loop of `pollardsRho`. -/

/-- The value computed by `f` when `n ≠ 0`. -/
def fVal (n x : Int) : Int := (x * x + 1) % n

/-- The value of `d` computed in the loop body from the new `x` and `y`. -/
def dVal (n x y : Int) : Int := gcd |x - y| n

/-- The tortoise after `i` passes through the loop body. -/
def xSeq (n : Int) (i : Nat) : Int := (fVal n)^[i] 2

/-- The hare after `i` passes through the loop body. -/
def ySeq (n : Int) (i : Nat) : Int := (fVal n)^[2 * i] 2

/-- The variable `d` after `i` passes through the loop body. -/
def dSeq (n : Int) (i : Nat) : Int :=
  if i = 0 then 1 else dVal n (xSeq n i) (ySeq n i)

/-! ## fermat.go -/

/-- The method `Sqrt` of `big.Int`: floor square root, panics on a negative argument. -/
def bigSqrt (x : Int) : Option Int :=
  if x < 0 then none else some (Int.ofNat (Nat.sqrt x.toNat))

/-- The loop `for bSquared.Sign() >= 0 { ... }` of `fermatFactorization` on the
variables `(a, bSquared, b)`; it returns their values when the loop is left. -/
def fermatLoop (n : Int) : Nat → Int → Int → Int → Run (Int × Int × Int)
  | 0, _, _, _ => Run.timeout
  | fuel + 1, a, bSquared, b =>
    if 0 ≤ bSquared then
      match bigSqrt bSquared with
      | none => Run.crash
      | some b1 =>
        if bSquared = n then Run.ret (a, bSquared, b1)
        else fermatLoop n fuel (a + 1) ((a + 1) * (a + 1) - n) b1
    else Run.ret (a, bSquared, b)

/-- The function `fermatFactorization`: `none` is `(nil, nil)`. -/
def fermatFactorization (fuel : Nat) (n : Int) : Run (Option (Int × Int)) :=
  match bigSqrt n with
  | none => Run.crash
  | some r =>
    let a := r + 1
    match fermatLoop n fuel a (a * a - n) 0 with
    | Run.timeout => Run.timeout
    | Run.crash => Run.crash
    | Run.ret (a1, bSquared, b) =>
      if bSquared < 0 then Run.ret none else Run.ret (some (a1 - b, a1 + b))

/-! ## pollards_p_minus_1.go -/

/-- The method `Exp(x, y, m)` of `big.Int` for an exponent `y ≥ 0`:
`x**y mod |m|`, and `x**y` when `m = 0`. (The loop of `pollardsPMinus1` only
calls it with `y = b ≥ 2`.) -/
def bigExp (x y m : Int) : Int :=
  if m = 0 then x ^ y.toNat else x ^ y.toNat % |m|

/-- The loop `for b.Cmp(bLimit) < 0 { ... }` of `pollardsPMinus1` on the
variables `(a, b)`, with the `return nil` that follows it. -/
def pMinus1Loop (n bLimit a b : Int) : Option Int :=
  if b < bLimit then
    let a1 := bigExp a b n
    let d := gcd (a1 - 1) n
    if 1 < d ∧ d < n then some d
    else pMinus1Loop n bLimit a1 (b + 1)
  else none
termination_by (bLimit - b).toNat
decreasing_by omega

/-- The function `pollardsPMinus1`: `none` is the `nil` result. -/
def pollardsPMinus1 (n bLimit : Int) : Option Int :=
  pMinus1Loop n bLimit 2 2

/-- The function `findFactors` of `pollards_p_minus_1.go`: `none` is `(nil, nil)`;
`Div` panics on a zero divisor. -/
def pMinus1FindFactors (n bLimit : Int) : Run (Option (Int × Int)) :=
  match pollardsPMinus1 n bLimit with
  | none => Run.ret none
  | some factor1 =>
    if factor1 = 0 then Run.crash else Run.ret (some (factor1, n / factor1))

/-! ## parallel-fermat.go -/

/-- The loop `for a.Cmp(end) <= 0 { ... }` of the worker
`parallelFermatFactorization` on the variables `(a, bSquared, b)`:
`some (p, q)` is the pair sent on the channel, `none` means nothing is sent. -/
def workerLoop (n end_ a bSquared b : Int) : Option (Int × Int) :=
  if a ≤ end_ then
    let b1 := b * b
    if bSquared = b1 then some (a - b1, a + b1)
    else workerLoop n end_ (a + 1) ((a + 1) * (a + 1) - n) b1
  else none
termination_by (end_ + 1 - a).toNat
decreasing_by omega

/-- The worker `parallelFermatFactorization(n, start, end, ...)`. -/
def parallelFermatFactorization (n start end_ : Int) : Option (Int × Int) :=
  workerLoop n end_ start (start * start - n) 0

/-- The loop `for i := 0; i < numThreads; i++ { ... }` of `main`, from the
counter `i` and the current `start`: the `(start, end)` arguments of the
workers it launches, in order. -/
def rangesLoop (n increment : Int) (numThreads i : Nat) (start : Int) :
    List (Int × Int) :=
  if i < numThreads then
    let end_ := if i = numThreads - 1 then n + 1 else start + increment
    (start, end_) :: rangesLoop n increment numThreads (i + 1) (end_ + 1)
  else []
termination_by numThreads - i
decreasing_by omega

/-- The ranges built in `main` for `numThreads` workers; `none` when `Sqrt`
panics (negative `n`) or `Div` does (`numThreads = 0`). -/
def mainRanges (n : Int) (numThreads : Nat) : Option (List (Int × Int)) :=
  match bigSqrt n with
  | none => none
  | some start =>
    if numThreads = 0 then none
    else
      let increment := ((start + 1) - start) / (numThreads : Int)
      some (rangesLoop n increment numThreads 0 start)

/-- The pairs sent on the `result` channel by the workers launched in `main`,
in the order of the ranges. `main` prints one of them, and prints
"No factors found" exactly when there is none. -/
def mainEmitted (n : Int) (numThreads : Nat) : Option (List (Int × Int)) :=
  (mainRanges n numThreads).map
    (fun rs => rs.filterMap (fun r => parallelFermatFactorization n r.1 r.2))

/-! ## Reference search for Pollard p-1, in the words of the specification -/

/-- The value `d_e = gcd(a_e - 1, n)` of the specification, with
`a_e = 2^(e!) mod n`. -/
def pMinus1RefD (n : Int) (e : Nat) : Int :=
  (Int.gcd ((2 : Int) ^ e.factorial % n - 1) n : Int)

/-- The reference search of the specification over the exponents
`e = 2, 3, ..., B` inclusive: `d_e` for the least `e` with `1 < d_e < n`, and
`none` (NotFound) when there is no such `e`. -/
def pMinus1Reference (n : Int) (B : Nat) : Option Int :=
  ((List.range' 2 (B - 1)).find?
    (fun e => decide (1 < pMinus1RefD n e ∧ pMinus1RefD n e < n))).map (pMinus1RefD n)

/-! ## The interval of the specification for the parallel search -/

/-- Modelled from the spec: `ceil(sqrt(N))`, the start of the interval
`[ceil(sqrt(N)), N]` that the specification partitions (the code has no such
function; `main` uses `Sqrt`, the floor). -/
def ceilSqrt (n : Int) : Int :=
  if (Nat.sqrt n.toNat : Int) * (Nat.sqrt n.toNat : Int) = n then (Nat.sqrt n.toNat : Int)
  else (Nat.sqrt n.toNat : Int) + 1

/-! ## The states of the loop of fermatFactorization -/

/-- The values of `(a, bSquared, b)` at the `k`-th evaluation (counted from
`0`) of the loop condition of `fermatFactorization`, when the loop started with
the given values gets that far: `none` when it was left before (or `Sqrt`
panicked). The passes are those of `fermatLoop`. -/
def fermatStateAt (n : Int) : Nat → Int → Int → Int → Option (Int × Int × Int)
  | 0, a, bSquared, b => some (a, bSquared, b)
  | k + 1, a, bSquared, _ =>
    if 0 ≤ bSquared then
      match bigSqrt bSquared with
      | none => none
      | some b1 =>
        if bSquared = n then none
        else fermatStateAt n k (a + 1) ((a + 1) * (a + 1) - n) b1
    else none

/-! ## generation.go

The Go `int` values of `isPrime` and `generateFirstNPrimes` are modelled as
`Int`: the candidates run from `2` to the hundredth prime, far below the range
of a machine integer. Go's `%` on `int` is the truncated remainder. -/

/-- The loop `for i := 2; i*i <= number; i++ { ... }` of `isPrime`, from the
counter `i`, with the `return true` that follows it. -/
def isPrimeLoop (number i : Int) : Bool :=
  if i * i ≤ number then
    if Int.tmod number i = 0 then false
    else isPrimeLoop number (i + 1)
  else true
termination_by (number + 1 - i).toNat
decreasing_by
  rename_i h _
  have hi : i ≤ i * i := by
    rcases le_or_lt i 0 with h0 | h0
    · nlinarith
    · nlinarith
  omega

/-- The function `isPrime` (trial division). -/
def isPrime (number : Int) : Bool :=
  isPrimeLoop number 2

/-- The loop `for i := 2; len(primes) < n; i++ { ... }` of
`generateFirstNPrimes`, from the counter `i` and the slice `primes`. -/
def genPrimesLoop (n : Int) : Nat → Int → List Int → Run (List Int)
  | 0, _, _ => Run.timeout
  | fuel + 1, i, primes =>
    if (primes.length : Int) < n then
      if isPrime i then genPrimesLoop n fuel (i + 1) (primes ++ [i])
      else genPrimesLoop n fuel (i + 1) primes
    else Run.ret primes

/-- The function `generateFirstNPrimes`. -/
def generateFirstNPrimes (fuel : Nat) (n : Int) : Run (List Int) :=
  genPrimesLoop n fuel 2 []

/-- The loop `for _, prime := range smallPrimes { ... }` of `hasSmallFactors`,
with the `return false` that follows it; `Mod` panics on a zero modulus. -/
def hasSmallFactorsLoop (number : Int) : List Int → Run Bool
  | [] => Run.ret false
  | prime :: rest =>
    if prime = 0 then Run.crash
    else if number % prime = 0 then Run.ret true
    else hasSmallFactorsLoop number rest

/-- The function `hasSmallFactors`. -/
def hasSmallFactors (fuel : Nat) (number : Int) : Run Bool :=
  match generateFirstNPrimes fuel 100 with
  | Run.timeout => Run.timeout
  | Run.crash => Run.crash
  | Run.ret smallPrimes => hasSmallFactorsLoop number smallPrimes

/-- The test `if hasSmallFactors(pMinusOne)` of `generatePMinusOneComposite`
on a generated prime `p`, with `pMinusOne = p - 1`. -/
def pMinusOneAccepted (fuel : Nat) (p : Int) : Run Bool :=
  hasSmallFactors fuel (p - 1)

/-! # Properties -/

/-! ## The recursive gcd -/

theorem gcd_zero_right (a : Int) : gcd a 0 = a := by
  rw [gcd]; simp

theorem gcd_of_ne_zero (a b : Int) (h : b ≠ 0) : gcd a b = gcd b (a % b) := by
  rw [gcd]; simp [h]

theorem intGcd_emod (a b : Int) : Int.gcd b (a % b) = Int.gcd a b := by
  have hsplit : a % b + b * (a / b) = a := Int.emod_add_ediv a b
  apply Nat.dvd_antisymm
  · apply Int.natCast_dvd_natCast.mp
    apply Int.dvd_gcd
    · have h1 : (↑(Int.gcd b (a % b)) : Int) ∣ a % b := Int.gcd_dvd_right
      have h2 : (↑(Int.gcd b (a % b)) : Int) ∣ b := Int.gcd_dvd_left
      have h3 : (↑(Int.gcd b (a % b)) : Int) ∣ a % b + b * (a / b) :=
        dvd_add h1 (Dvd.dvd.mul_right h2 _)
      rwa [hsplit] at h3
    · exact Int.gcd_dvd_left
  · apply Int.natCast_dvd_natCast.mp
    apply Int.dvd_gcd
    · exact Int.gcd_dvd_right
    · have h1 : (↑(Int.gcd a b) : Int) ∣ a := Int.gcd_dvd_left
      have h2 : (↑(Int.gcd a b) : Int) ∣ b := Int.gcd_dvd_right
      have h3 : a % b = a - b * (a / b) := by omega
      rw [h3]
      exact dvd_sub h1 (Dvd.dvd.mul_right h2 _)

/-- On non-negative arguments the recursive `gcd` is the mathematical gcd. -/
theorem gcd_eq_of_nonneg : ∀ (k : Nat) (a b : Int), b.natAbs ≤ k → 0 ≤ a → 0 ≤ b →
    gcd a b = (Int.gcd a b : Int) := by
  intro k
  induction k with
  | zero =>
    intro a b hk ha _
    have hb : b = 0 := by omega
    subst hb
    rw [gcd_zero_right]
    simp [Int.gcd, Int.natAbs_of_nonneg ha]
  | succ k ih =>
    intro a b hk ha hb
    by_cases hb0 : b = 0
    · subst hb0
      rw [gcd_zero_right]
      simp [Int.gcd, Int.natAbs_of_nonneg ha]
    · rw [gcd_of_ne_zero a b hb0]
      have h1 : 0 ≤ a % b := Int.emod_nonneg a hb0
      have h2 : a % b < |b| := Int.emod_lt a hb0
      rw [Int.abs_eq_natAbs] at h2
      rw [ih b (a % b) (by omega) hb h1, intGcd_emod]

/-- With a positive second argument the recursive `gcd` is the mathematical
gcd, whatever the sign of the first. -/
theorem gcd_eq_of_pos (a b : Int) (hb : 0 < b) : gcd a b = (Int.gcd a b : Int) := by
  rw [gcd_of_ne_zero a b (by omega)]
  rw [gcd_eq_of_nonneg _ b (a % b) (le_refl _) (by omega) (Int.emod_nonneg a (by omega)),
    intGcd_emod]

theorem gcd_dvd_right_of_pos (a b : Int) (hb : 0 < b) : gcd a b ∣ b := by
  rw [gcd_eq_of_pos a b hb]; exact Int.gcd_dvd_right

theorem gcd_dvd_left_of_pos (a b : Int) (hb : 0 < b) : gcd a b ∣ a := by
  rw [gcd_eq_of_pos a b hb]; exact Int.gcd_dvd_left

theorem gcd_pos_of_pos (a b : Int) (hb : 0 < b) : 0 < gcd a b := by
  rw [gcd_eq_of_pos a b hb]
  exact_mod_cast Int.gcd_pos_of_ne_zero_right a (by omega)

theorem gcd_le_of_pos (a b : Int) (hb : 0 < b) : gcd a b ≤ b :=
  Int.le_of_dvd hb (gcd_dvd_right_of_pos a b hb)

/-! ## Pollard rho: the loop meets the cycle -/

theorem f_eq_fVal (x n : Int) (hn : n ≠ 0) : f x n = some (fVal n x) := by
  simp [f, fVal, hn]

theorem rhoStep_eq (n x y : Int) (hn : n ≠ 0) :
    rhoStep n x y =
      some (fVal n x, fVal n (fVal n y), dVal n (fVal n x) (fVal n (fVal n y))) := by
  simp [rhoStep, f_eq_fVal _ _ hn, dVal]

theorem xSeq_succ (n : Int) (i : Nat) : xSeq n (i + 1) = fVal n (xSeq n i) := by
  simp [xSeq, Function.iterate_succ_apply']

theorem ySeq_succ (n : Int) (i : Nat) :
    ySeq n (i + 1) = fVal n (fVal n (ySeq n i)) := by
  have h : 2 * (i + 1) = (2 * i + 1) + 1 := by ring
  simp [ySeq, h, Function.iterate_succ_apply']

/-- While `d` stays `1`, `i` passes through the loop lead to the state
`(xSeq i, ySeq i, dSeq i)`. -/
theorem rhoLoop_run (n : Int) (hn : n ≠ 0) :
    ∀ (i k : Nat), (∀ j, j < i → dSeq n j = 1) →
      rhoLoop n (i + k) 2 2 1 = rhoLoop n k (xSeq n i) (ySeq n i) (dSeq n i) := by
  intro i
  induction i with
  | zero =>
    intro k _
    simp [xSeq, ySeq, dSeq]
  | succ i ih =>
    intro k h
    have h1 : i + 1 + k = i + (k + 1) := by omega
    rw [h1, ih (k + 1) (fun j hj => h j (by omega))]
    have hd : dSeq n i = 1 := h i (by omega)
    rw [hd]
    simp only [rhoLoop, rhoStep_eq _ _ _ hn, if_true]
    rw [← xSeq_succ, ← ySeq_succ]
    simp [dSeq]

theorem fVal_range (n x : Int) (hn : 0 < n) : 0 ≤ fVal n x ∧ fVal n x < n :=
  ⟨Int.emod_nonneg _ (by omega), Int.emod_lt_of_pos _ hn⟩

theorem xSeq_range (n : Int) (hn : 0 < n) (i : Nat) :
    0 ≤ xSeq n (i + 1) ∧ xSeq n (i + 1) < n := by
  rw [xSeq_succ]; exact fVal_range n _ hn

/-- Two iterates of `f` on the seed coincide (pigeonhole on the residues). -/
theorem xSeq_collision (n : Int) (hn : 0 < n) :
    ∃ m l : Nat, 0 < m ∧ 0 < l ∧ xSeq n (m + l) = xSeq n m := by
  let N := n.toNat
  have hN : (N : Int) = n := Int.toNat_of_nonneg (by omega)
  let h : Fin (N + 1) → Fin N := fun j =>
    ⟨(xSeq n (j.val + 1)).toNat, by
      have := xSeq_range n hn j.val
      omega⟩
  have hcard : Fintype.card (Fin N) < Fintype.card (Fin (N + 1)) := by simp
  obtain ⟨j, k, hjk, heq⟩ := Fintype.exists_ne_map_eq_of_card_lt h hcard
  have heq2 : xSeq n (j.val + 1) = xSeq n (k.val + 1) := by
    have h1 := congrArg Fin.val heq
    simp only [h] at h1
    have hj := xSeq_range n hn j.val
    have hk := xSeq_range n hn k.val
    omega
  have hne : j.val ≠ k.val := fun hh => hjk (Fin.ext hh)
  rcases Nat.lt_or_gt_of_ne hne with hlt | hgt
  · refine ⟨j.val + 1, k.val - j.val, by omega, by omega, ?_⟩
    have h2 : j.val + 1 + (k.val - j.val) = k.val + 1 := by omega
    rw [h2, heq2]
  · refine ⟨k.val + 1, j.val - k.val, by omega, by omega, ?_⟩
    have h2 : k.val + 1 + (j.val - k.val) = j.val + 1 := by omega
    rw [h2, heq2]

theorem xSeq_add (n : Int) (a b : Nat) : xSeq n (a + b) = (fVal n)^[a] (xSeq n b) := by
  simp [xSeq, Function.iterate_add_apply]

/-- Past the collision the sequence repeats with period `l`. -/
theorem xSeq_periodic (n : Int) (m l : Nat) (h : xSeq n (m + l) = xSeq n m) :
    ∀ (t i : Nat), m ≤ i → xSeq n (i + t * l) = xSeq n i := by
  intro t
  induction t with
  | zero => intro i _; simp
  | succ t ih =>
    intro i hi
    have h1 : i + (t + 1) * l = (i - m + t * l) + (m + l) := by
      have : (t + 1) * l = t * l + l := by ring
      omega
    have h2 : (i - m + t * l) + m = i + t * l := by omega
    rw [h1, xSeq_add, h, ← xSeq_add, h2, ih i hi]

/-- Floyd: the tortoise and the hare meet after some `i ≥ 1` passes. -/
theorem tortoise_meets_hare (n : Int) (hn : 0 < n) :
    ∃ i : Nat, 0 < i ∧ xSeq n i = ySeq n i := by
  obtain ⟨m, l, hm, hl, h⟩ := xSeq_collision n hn
  refine ⟨m * l, Nat.mul_pos hm hl, ?_⟩
  have hle : m ≤ m * l := Nat.le_mul_of_pos_right m hl
  have h1 := xSeq_periodic n m l h m (m * l) hle
  have h2 : ySeq n (m * l) = xSeq n (m * l + m * l) := by
    simp [ySeq, xSeq, two_mul]
  rw [h2, h1]

theorem dVal_self (n x : Int) (hn : 0 < n) : dVal n x x = n := by
  have h0 : n ≠ 0 := by omega
  simp [dVal, gcd_of_ne_zero 0 n h0, gcd_zero_right]

/-- Some pass through the loop body ends with `d ≠ 1`. -/
theorem dSeq_leaves (n : Int) (hn : 1 < n) : ∃ i : Nat, dSeq n i ≠ 1 := by
  obtain ⟨i, hi, h⟩ := tortoise_meets_hare n (by omega)
  refine ⟨i, ?_⟩
  have hi0 : i ≠ 0 := by omega
  simp only [dSeq, hi0, if_false]
  rw [← h, dVal_self n _ (by omega)]
  omega

/-- With enough fuel the loop of `pollardsRho` returns the first `d ≠ 1`, which
is a divisor of `n` greater than one. -/
theorem rhoLoop_returns (n : Int) (hn : 1 < n) :
    ∃ (i : Nat) (d : Int), 0 < i ∧ 1 < d ∧ d ≤ n ∧ d ∣ n ∧ d = dSeq n i ∧
      (∀ j, j < i → dSeq n j = 1) ∧
      (∀ fuel, i < fuel → rhoLoop n fuel 2 2 1 = Run.ret d) ∧
      (∀ fuel, fuel ≤ i → rhoLoop n fuel 2 2 1 = Run.timeout) := by
  have hex := dSeq_leaves n hn
  have hne : dSeq n (Nat.find hex) ≠ 1 := Nat.find_spec hex
  have hmin : ∀ j, j < Nat.find hex → dSeq n j = 1 := fun j hj =>
    not_not.mp (Nat.find_min hex hj)
  have hpos : 0 < Nat.find hex := by
    rcases Nat.eq_zero_or_pos (Nat.find hex) with h0 | h0
    · rw [h0] at hne; simp [dSeq] at hne
    · exact h0
  have hi0 : Nat.find hex ≠ 0 := by omega
  have hd : dSeq n (Nat.find hex) = gcd |xSeq n (Nat.find hex) - ySeq n (Nat.find hex)| n := by
    simp [dSeq, hi0, dVal]
  have hn0 : 0 < n := by omega
  refine ⟨Nat.find hex, dSeq n (Nat.find hex), hpos, ?_, ?_, ?_, rfl, hmin, ?_, ?_⟩
  · have := gcd_pos_of_pos |xSeq n (Nat.find hex) - ySeq n (Nat.find hex)| n hn0
    rw [← hd] at this
    omega
  · rw [hd]; exact gcd_le_of_pos _ n hn0
  · rw [hd]; exact gcd_dvd_right_of_pos _ n hn0
  · intro fuel hfuel
    obtain ⟨k, rfl⟩ : ∃ k, fuel = Nat.find hex + (k + 1) := ⟨fuel - Nat.find hex - 1, by omega⟩
    rw [rhoLoop_run n (by omega) _ _ hmin]
    simp [rhoLoop, hne]
  · intro fuel hfuel
    have h := rhoLoop_run n (by omega) fuel 0 (fun j hj => hmin j (by omega))
    rw [Nat.add_zero] at h
    rw [h]
    rfl

/-- The function `pollardsRho` returns on every `n > 1`, after `passes` passes
through the loop body: `nil` or a proper divisor of `n`. -/
theorem pollardsRho_returns (n : Int) (hn : 1 < n) :
    ∃ (passes : Nat) (r : Option Int),
      (∀ fuel, passes < fuel → pollardsRho fuel n = Run.ret r) ∧
      (∀ fuel, fuel ≤ passes → pollardsRho fuel n = Run.timeout) ∧
      (∀ d, r = some d → 1 < d ∧ d < n ∧ d ∣ n) := by
  obtain ⟨i, d, _, hd1, hdn, hdvd, _, _, hrun, hout⟩ := rhoLoop_returns n hn
  by_cases hdeq : d = n
  · refine ⟨i, none, ?_, ?_, by simp⟩
    · intro fuel hfuel
      simp [pollardsRho, hrun fuel hfuel, hdeq]
    · intro fuel hfuel
      simp [pollardsRho, hout fuel hfuel]
  · refine ⟨i, some d, ?_, ?_, ?_⟩
    · intro fuel hfuel
      simp [pollardsRho, hrun fuel hfuel, hdeq]
    · intro fuel hfuel
      simp [pollardsRho, hout fuel hfuel]
    · intro d' hd'
      have : d' = d := by simpa using hd'.symm
      subst this
      exact ⟨hd1, by omega, hdvd⟩

/-! ## Pollard rho on 8051 -/

theorem rhoStep_8051_first : rhoStep 8051 2 2 = some (5, 26, 1) := by
  norm_num [rhoStep, f, gcd_eq_of_pos]

theorem rhoStep_8051_second : rhoStep 8051 5 26 = some (26, 7474, 1) := by
  norm_num [rhoStep, f, gcd_eq_of_pos]

theorem rhoStep_8051_third : rhoStep 8051 26 7474 = some (677, 871, 97) := by
  norm_num [rhoStep, f, gcd_eq_of_pos]

theorem rhoLoop_8051 (k : Nat) : rhoLoop 8051 (k + 4) 2 2 1 = Run.ret 97 := by
  have h : k + 4 = k + 1 + 1 + 1 + 1 := rfl
  rw [h]
  simp only [rhoLoop, rhoStep_8051_first, rhoStep_8051_second, rhoStep_8051_third, if_true]
  norm_num

theorem pollardsRho_8051 (k : Nat) : pollardsRho (k + 4) 8051 = Run.ret (some 97) := by
  rw [pollardsRho, rhoLoop_8051 k]
  simp

theorem rhoFindFactors_8051 (k : Nat) :
    rhoFindFactors (k + 4) 8051 = Run.ret (some (97, 83)) := by
  rw [rhoFindFactors, pollardsRho_8051 k]
  norm_num

/-! ## The loop of the sequential Fermat search -/

theorem bigSqrt_of_nonneg (x : Int) (hx : 0 ≤ x) :
    bigSqrt x = some (Int.ofNat (Nat.sqrt x.toNat)) := by
  simp [bigSqrt, not_lt.mpr hx]

/-- The loop never ends when `a*a - n` stays non-negative and different
from `n` for every candidate from `a` on. -/
theorem fermatLoop_timeout (n : Int) :
    ∀ (fuel : Nat) (a b : Int),
      (∀ k : Nat, 0 ≤ (a + k) * (a + k) - n ∧ (a + k) * (a + k) - n ≠ n) →
      fermatLoop n fuel a (a * a - n) b = Run.timeout := by
  intro fuel
  induction fuel with
  | zero => intro a b _; rfl
  | succ fuel ih =>
    intro a b h
    have h0 := h 0
    simp only [Nat.cast_zero, add_zero] at h0
    rw [fermatLoop]
    simp only [h0.1, if_true, bigSqrt_of_nonneg _ h0.1, h0.2, if_false]
    apply ih
    intro k
    have hk := h (k + 1)
    have e : a + ((k + 1 : Nat) : Int) = a + 1 + (k : Int) := by push_cast; ring
    rw [e] at hk
    exact hk

/-- The first candidate `a = floor(sqrt n) + 1` has `a*a > n`. -/
theorem lt_start_sq (n : Nat) :
    (n : Int) < ((Nat.sqrt n : Int) + 1) * ((Nat.sqrt n : Int) + 1) := by
  have h := Nat.lt_succ_sqrt n
  have h2 : ((n : Nat) : Int) < ((Nat.succ (Nat.sqrt n) * Nat.succ (Nat.sqrt n) : Nat) : Int) :=
    Int.ofNat_lt.mpr h
  push_cast at h2
  exact h2

/-- On `n ≥ 0` the search never returns unless twice `n` is the square of a
candidate. -/
theorem fermatFactorization_timeout (n : Nat)
    (h : ∀ c : Int, c * c ≠ 2 * (n : Int)) (fuel : Nat) :
    fermatFactorization fuel n = Run.timeout := by
  have hs : bigSqrt (n : Int) = some ((Nat.sqrt n : Nat) : Int) := by
    rw [bigSqrt_of_nonneg _ (Int.ofNat_nonneg n)]
    simp
  have hloop : fermatLoop n fuel ((Nat.sqrt n : Int) + 1)
      (((Nat.sqrt n : Int) + 1) * ((Nat.sqrt n : Int) + 1) - n) 0 = Run.timeout := by
    apply fermatLoop_timeout
    intro k
    have h1 := lt_start_sq n
    have h2 : 0 ≤ (Nat.sqrt n : Int) := Int.ofNat_nonneg _
    have h3 : 0 ≤ (k : Int) := Int.ofNat_nonneg _
    constructor
    · nlinarith
    · intro heq
      exact h ((Nat.sqrt n : Int) + 1 + k) (by linarith)
  simp only [fermatFactorization, hs, hloop]

/-- Twice an odd number is not a square. -/
theorem sq_ne_two_mul_odd (n : Nat) (hodd : n % 2 = 1) (c : Int) :
    c * c ≠ 2 * (n : Int) := by
  intro h
  have hn : (n : Int) % 2 = 1 := by omega
  rcases Int.emod_two_eq_zero_or_one c with hc | hc
  · obtain ⟨m, hm⟩ : ∃ m, c = 2 * m := ⟨c / 2, by omega⟩
    rw [hm] at h
    have : (n : Int) = 2 * (m * m) := by linarith
    omega
  · obtain ⟨m, hm⟩ : ∃ m, c = 2 * m + 1 := ⟨c / 2, by omega⟩
    rw [hm] at h
    have : 2 * (n : Int) = 2 * (2 * m * m + 2 * m) + 1 := by linarith
    omega

/-- When the loop is left, `bSquared` equals `n`: the exit `bSquared < 0` is
never taken from a candidate with `a*a > n ≥ 0`. -/
theorem fermatLoop_ret (n : Int) :
    ∀ (fuel : Nat) (a b : Int) (r : Int × Int × Int), 0 ≤ a → n < a * a →
      fermatLoop n fuel a (a * a - n) b = Run.ret r → r.2.1 = n := by
  intro fuel
  induction fuel with
  | zero => intro a b r _ _ h; simp [fermatLoop] at h
  | succ fuel ih =>
    intro a b r ha hlt h
    have h0 : 0 ≤ a * a - n := by omega
    rw [fermatLoop] at h
    simp only [h0, if_true, bigSqrt_of_nonneg _ h0] at h
    by_cases heq : a * a - n = n
    · simp only [heq, if_true] at h
      cases h
      rfl
    · simp only [heq, if_false] at h
      exact ih (a + 1) _ r (by omega) (by nlinarith) h

/-- The result `(nil, nil)` is never returned on `n ≥ 0`. -/
theorem fermatFactorization_ne_nil (n : Nat) (fuel : Nat) :
    fermatFactorization fuel n ≠ Run.ret none := by
  have hs : bigSqrt (n : Int) = some ((Nat.sqrt n : Nat) : Int) := by
    rw [bigSqrt_of_nonneg _ (Int.ofNat_nonneg n)]
    simp
  intro h
  simp only [fermatFactorization, hs] at h
  have h2 : 0 ≤ (Nat.sqrt n : Int) := Int.ofNat_nonneg _
  cases hl : fermatLoop n fuel ((Nat.sqrt n : Int) + 1)
      (((Nat.sqrt n : Int) + 1) * ((Nat.sqrt n : Int) + 1) - n) 0 with
  | timeout => rw [hl] at h; simp at h
  | crash => rw [hl] at h; simp at h
  | ret r =>
    have hr := fermatLoop_ret n fuel _ _ r (by omega) (lt_start_sq n) hl
    rw [hl] at h
    obtain ⟨a1, bSq, b⟩ := r
    simp only at hr
    subst hr
    have : ¬ ((n : Int) < 0) := by omega
    simp [this] at h

theorem ySeq_eq_xSeq (n : Int) (i : Nat) : ySeq n i = xSeq n (2 * i) := rfl

/-- For a prime `p` and residues `x`, `y`, the `d` of the loop body is `p`
when they coincide and `1` otherwise. -/
theorem dVal_prime (p : Nat) (hp : p.Prime) (x y : Int)
    (hx0 : 0 ≤ x) (hx : x < p) (hy0 : 0 ≤ y) (hy : y < p) :
    dVal p x y = if x = y then (p : Int) else 1 := by
  have hp0 : (0 : Int) < p := by exact_mod_cast hp.pos
  by_cases hxy : x = y
  · subst hxy
    simp [dVal_self _ _ hp0]
  · simp only [hxy, if_false, dVal]
    rw [gcd_eq_of_pos _ _ hp0]
    have h1 : (|x - y|).natAbs < p := by
      rw [Int.natAbs_abs]; omega
    have h2 : 0 < (|x - y|).natAbs := by
      rw [Int.natAbs_abs]; omega
    have h3 : Nat.Coprime p (|x - y|).natAbs :=
      (Nat.Prime.coprime_iff_not_dvd hp).mpr (Nat.not_dvd_of_pos_of_lt h2 h1)
    have h4 : Int.gcd |x - y| p = 1 := by
      rw [Int.gcd, Int.natAbs_ofNat, Nat.gcd_comm]
      exact h3
    rw [h4]
    rfl

/-- C1 (fails on the code): on every odd `N ≥ 1`, in particular on the odd
composite `143 = 11 * 13`, the loop of `fermatFactorization` is still running
whatever the number of iterations allowed: no pair is ever returned. -/
theorem fermat_odd_never_returns :
    (∀ m fuel : Nat, fermatFactorization fuel (2 * (m : Int) + 1) = Run.timeout) ∧
    (∀ fuel : Nat, fermatFactorization fuel 143 = Run.timeout) := by
  have h : ∀ m fuel : Nat, fermatFactorization fuel (2 * (m : Int) + 1) = Run.timeout := by
    intro m fuel
    have := fermatFactorization_timeout (2 * m + 1)
      (sq_ne_two_mul_odd (2 * m + 1) (by omega)) fuel
    simpa using this
  exact ⟨h, fun fuel => h 71 fuel⟩

/-- C2: for every `n > 1`, `findFactors(n)` of `pollards_rho.go` returns (once
the loop has made its `passes` passes; before that it is still running) either
`(nil, nil)` or a pair `(d, n/d)` with `1 < d < n`, `d ∣ n` and
`d * (n/d) = n`, so the verification test of `main` passes; on `8051` it
returns `d = 97`, `n/d = 83`. -/
theorem rho_findFactors_sound :
    (∀ n : Int, 1 < n →
      ∃ (passes : Nat) (r : Option (Int × Int)),
        (∀ fuel, passes < fuel → rhoFindFactors fuel n = Run.ret r) ∧
        (∀ fuel, fuel ≤ passes → rhoFindFactors fuel n = Run.timeout) ∧
        (r = none ∨
          ∃ d : Int, r = some (d, n / d) ∧ 1 < d ∧ d < n ∧ d ∣ n ∧ d * (n / d) = n ∧
            verificationTest n (d, n / d) = true)) ∧
    (∀ k : Nat, rhoFindFactors (k + 4) 8051 = Run.ret (some (97, 83))) := by
  refine ⟨?_, rhoFindFactors_8051⟩
  intro n hn
  obtain ⟨passes, r, hret, hout, hr⟩ := pollardsRho_returns n hn
  cases r with
  | none =>
    refine ⟨passes, none, ?_, ?_, Or.inl rfl⟩
    · intro fuel hfuel
      simp [rhoFindFactors, hret fuel hfuel]
    · intro fuel hfuel
      simp [rhoFindFactors, hout fuel hfuel]
  | some d =>
    obtain ⟨hd1, hdn, hdvd⟩ := hr d rfl
    have hd0 : d ≠ 0 := by omega
    have hmul : d * (n / d) = n := Int.mul_ediv_cancel' hdvd
    refine ⟨passes, some (d, n / d), ?_, ?_, Or.inr ⟨d, rfl, hd1, hdn, hdvd, hmul, ?_⟩⟩
    · intro fuel hfuel
      simp [rhoFindFactors, hret fuel hfuel, hd0]
    · intro fuel hfuel
      simp [rhoFindFactors, hout fuel hfuel]
    · simp [verificationTest, hmul]

/-- Witness of `rho_findFactors_sound` at `n = 8051`. -/
theorem rho_findFactors_sound_witness :
    (1 : Int) < 8051 ∧
      ∃ (passes : Nat) (r : Option (Int × Int)),
        (∀ fuel, passes < fuel → rhoFindFactors fuel 8051 = Run.ret r) ∧
        (∀ fuel, fuel ≤ passes → rhoFindFactors fuel 8051 = Run.timeout) ∧
        (r = none ∨
          ∃ d : Int, r = some (d, 8051 / d) ∧ 1 < d ∧ d < 8051 ∧ d ∣ 8051 ∧
            d * (8051 / d) = 8051 ∧ verificationTest 8051 (d, 8051 / d) = true) :=
  ⟨by decide, rho_findFactors_sound.1 8051 (by decide)⟩

/-- C8: for every `n > 1` the loop of `pollardsRho(n)` ends after finitely many
passes: there is a number `passes` such that the run returns a result `r` (a
factor or `nil`) as soon as more than `passes` iterations are allowed, and is
still running before. The recursive `gcd` and `f` are total functions. -/
theorem pollardsRho_terminates (n : Int) (hn : 1 < n) :
    ∃ (passes : Nat) (r : Option Int),
      (∀ fuel, passes < fuel → pollardsRho fuel n = Run.ret r) ∧
      (∀ fuel, fuel ≤ passes → pollardsRho fuel n = Run.timeout) := by
  obtain ⟨passes, r, hret, hout, _⟩ := pollardsRho_returns n hn
  exact ⟨passes, r, hret, hout⟩

/-- Witness of `pollardsRho_terminates` at `n = 8051`. -/
theorem pollardsRho_terminates_witness :
    (1 : Int) < 8051 ∧
      ∃ (passes : Nat) (r : Option Int),
        (∀ fuel, passes < fuel → pollardsRho fuel 8051 = Run.ret r) ∧
        (∀ fuel, fuel ≤ passes → pollardsRho fuel 8051 = Run.timeout) :=
  ⟨by decide, pollardsRho_terminates 8051 (by decide)⟩

/-- C6: for every prime `p`, `pollardsRho(p)` terminates and returns `nil`, and
`findFactors(p)` returns `(nil, nil)`: `d` is `1` at every pass where the
tortoise and the hare differ, and at the first pass `i` where they coincide
`d = p`, which ends the loop. -/
theorem pollardsRho_prime (p : Nat) (hp : p.Prime) :
    ∃ i : Nat, 0 < i ∧ xSeq p i = ySeq p i ∧ dSeq p i = p ∧
      (∀ j, 0 < j → j < i → xSeq p j ≠ ySeq p j ∧ dSeq p j = 1) ∧
      (∀ fuel, i < fuel →
        rhoLoop p fuel 2 2 1 = Run.ret (p : Int) ∧ pollardsRho fuel p = Run.ret none ∧
          rhoFindFactors fuel p = Run.ret none) ∧
      (∀ fuel, fuel ≤ i → pollardsRho fuel p = Run.timeout) := by
  have hp1 : (1 : Int) < p := by exact_mod_cast hp.one_lt
  have hp0 : (0 : Int) < p := by omega
  obtain ⟨i, d, hi, hd1, hdn, hdvd, hd, hmin, hrun, hout⟩ := rhoLoop_returns p hp1
  have hchar : ∀ j, 0 < j → dSeq p j = if xSeq p j = ySeq p j then (p : Int) else 1 := by
    intro j hj
    have hj0 : j ≠ 0 := by omega
    obtain ⟨j', rfl⟩ : ∃ j', j = j' + 1 := ⟨j - 1, by omega⟩
    have hx := xSeq_range p hp0 j'
    have hy : 0 ≤ ySeq p (j' + 1) ∧ ySeq p (j' + 1) < p := by
      rw [ySeq_eq_xSeq]
      have : 2 * (j' + 1) = (2 * j' + 1) + 1 := by ring
      rw [this]
      exact xSeq_range p hp0 _
    simp only [dSeq, hj0, if_false]
    exact dVal_prime p hp _ _ hx.1 hx.2 hy.1 hy.2
  have hdp : d = p := by
    rw [hd, hchar i hi]
    by_cases hxy : xSeq p i = ySeq p i
    · simp [hxy]
    · exfalso
      rw [hd, hchar i hi] at hd1
      simp [hxy] at hd1
  have hmeet : xSeq p i = ySeq p i := by
    by_contra hxy
    rw [hd, hchar i hi] at hd1
    simp [hxy] at hd1
  refine ⟨i, hi, hmeet, by rw [← hd, hdp], ?_, ?_, ?_⟩
  · intro j hj0 hji
    have h1 := hmin j hji
    refine ⟨?_, h1⟩
    intro hxy
    rw [hchar j hj0] at h1
    simp only [hxy, if_true] at h1
    omega
  · intro fuel hfuel
    have h1 : rhoLoop p fuel 2 2 1 = Run.ret (p : Int) := by rw [hrun fuel hfuel, hdp]
    have h2 : pollardsRho fuel p = Run.ret none := by simp [pollardsRho, h1]
    exact ⟨h1, h2, by simp [rhoFindFactors, h2]⟩
  · intro fuel hfuel
    simp [pollardsRho, hout fuel hfuel]

/-- Witness of `pollardsRho_prime` at the prime `7`. -/
theorem pollardsRho_prime_witness :
    Nat.Prime 7 ∧
    ∃ i : Nat, 0 < i ∧ xSeq (7 : Nat) i = ySeq (7 : Nat) i ∧ dSeq (7 : Nat) i = (7 : Nat) ∧
      (∀ j, 0 < j → j < i → xSeq (7 : Nat) j ≠ ySeq (7 : Nat) j ∧ dSeq (7 : Nat) j = 1) ∧
      (∀ fuel, i < fuel →
        rhoLoop (7 : Nat) fuel 2 2 1 = Run.ret ((7 : Nat) : Int) ∧
          pollardsRho fuel (7 : Nat) = Run.ret none ∧
          rhoFindFactors fuel (7 : Nat) = Run.ret none) ∧
      (∀ fuel, fuel ≤ i → pollardsRho fuel (7 : Nat) = Run.timeout) :=
  ⟨by norm_num, pollardsRho_prime 7 (by norm_num)⟩

theorem fermatFactorization_two (k : Nat) :
    fermatFactorization (k + 1) 2 = Run.ret (some (1, 3)) := by
  have hs : Nat.sqrt 2 = 1 := by
    symm; rw [Nat.eq_sqrt]; omega
  have h1 : bigSqrt 2 = some 1 := by
    rw [bigSqrt_of_nonneg _ (by norm_num)]
    simp [hs]
  simp only [fermatFactorization, h1, fermatLoop]
  norm_num [h1]

theorem fermatFactorization_eight (k : Nat) :
    fermatFactorization (k + 2) 8 = Run.ret (some (2, 6)) := by
  have hs : Nat.sqrt 8 = 2 := by
    symm; rw [Nat.eq_sqrt]; omega
  have hs1 : Nat.sqrt 1 = 1 := by
    symm; rw [Nat.eq_sqrt]; omega
  have h8 : bigSqrt 8 = some 2 := by
    rw [bigSqrt_of_nonneg _ (by norm_num)]
    simp [hs]
  have h1 : bigSqrt 1 = some 1 := by
    rw [bigSqrt_of_nonneg _ (by norm_num)]
    simp [hs1]
  have hk : k + 2 = k + 1 + 1 := rfl
  rw [hk]
  simp only [fermatFactorization, h8, fermatLoop]
  norm_num [h1, h8]

/-- C7 (fails on the code): on the prime `3` the loop of `fermatFactorization`
is still running whatever the number of iterations allowed, on the prime `2`
the function returns the pair `(1, 3)`, and on no `n ≥ 0` does it return
`(nil, nil)`. -/
theorem fermat_prime_not_nil :
    (∀ fuel : Nat, fermatFactorization fuel 3 = Run.timeout) ∧
    (∀ k : Nat, fermatFactorization (k + 1) 2 = Run.ret (some (1, 3))) ∧
    (∀ n fuel : Nat, fermatFactorization fuel (n : Int) ≠ Run.ret none) := by
  refine ⟨?_, fermatFactorization_two, fermatFactorization_ne_nil⟩
  intro fuel
  have := fermatFactorization_timeout 3 (sq_ne_two_mul_odd 3 (by omega)) fuel
  simpa using this

/-! ## Pollard p-1 -/

theorem pMinus1Loop_eq (n bLimit a b : Int) :
    pMinus1Loop n bLimit a b =
      if b < bLimit then
        if 1 < gcd (bigExp a b n - 1) n ∧ gcd (bigExp a b n - 1) n < n then
          some (gcd (bigExp a b n - 1) n)
        else pMinus1Loop n bLimit (bigExp a b n) (b + 1)
      else none := by
  rw [pMinus1Loop]

/-- A value returned by the loop passed the test `1 < d < n` and is a `gcd`
with `n`. -/
theorem pMinus1Loop_sound (n bLimit : Int) :
    ∀ (k : Nat) (a b d : Int), (bLimit - b).toNat ≤ k →
      pMinus1Loop n bLimit a b = some d →
      1 < d ∧ d < n ∧ ∃ c : Int, d = gcd c n := by
  intro k
  induction k with
  | zero =>
    intro a b d hk h
    rw [pMinus1Loop_eq] at h
    have : ¬ b < bLimit := by omega
    simp [this] at h
  | succ k ih =>
    intro a b d hk h
    rw [pMinus1Loop_eq] at h
    by_cases hb : b < bLimit
    · simp only [hb, if_true] at h
      by_cases hd : 1 < gcd (bigExp a b n - 1) n ∧ gcd (bigExp a b n - 1) n < n
      · simp only [hd, and_self, if_true] at h
        have hde : gcd (bigExp a b n - 1) n = d := by simpa using h
        rw [← hde]
        exact ⟨hd.1, hd.2, _, rfl⟩
      · simp only [hd, if_false] at h
        exact ih _ _ d (by omega) h
    · simp [hb] at h

theorem pollardsPMinus1_sound (n bLimit d : Int) (h : pollardsPMinus1 n bLimit = some d) :
    1 < d ∧ d < n ∧ d ∣ n := by
  obtain ⟨h1, h2, c, hc⟩ := pMinus1Loop_sound n bLimit _ 2 2 d (le_refl _) h
  refine ⟨h1, h2, ?_⟩
  rw [hc]
  exact gcd_dvd_right_of_pos c n (by omega)

theorem bigExp_natCast (a n : Int) (e : Nat) (hn : 0 < n) :
    bigExp a (e : Int) n = a ^ e % n := by
  have h0 : n ≠ 0 := by omega
  simp [bigExp, h0, abs_of_pos hn]

/-- One pass through the loop body turns `a ≡ 2^((e-1)!)` into `2^(e!) mod n`. -/
theorem bigExp_factorial (a n : Int) (e : Nat) (hn : 0 < n) (he : 1 ≤ e)
    (ha : a ≡ 2 ^ (e - 1).factorial [ZMOD n]) :
    bigExp a (e : Int) n = 2 ^ e.factorial % n := by
  rw [bigExp_natCast a n e hn]
  have h1 : a ^ e ≡ (2 ^ (e - 1).factorial) ^ e [ZMOD n] := Int.ModEq.pow e ha
  have h2 : ((2 : Int) ^ (e - 1).factorial) ^ e = 2 ^ e.factorial := by
    rw [← pow_mul, Nat.mul_comm, Nat.mul_factorial_pred (by omega)]
  rw [h2] at h1
  exact h1

/-- From the exponent `e`, with `a ≡ 2^((e-1)!)`, the loop with the bound
`bLimit = e + k` is the reference search over `e, ..., e + k - 1`. -/
theorem pMinus1Loop_eq_reference (n : Int) (hn : 1 < n) :
    ∀ (k e : Nat) (a : Int), 1 ≤ e → a ≡ 2 ^ (e - 1).factorial [ZMOD n] →
      pMinus1Loop n ((e : Int) + k) a e =
        ((List.range' e k).find?
          (fun e => decide (1 < pMinus1RefD n e ∧ pMinus1RefD n e < n))).map
          (pMinus1RefD n) := by
  intro k
  induction k with
  | zero =>
    intro e a _ _
    rw [pMinus1Loop_eq]
    simp
  | succ k ih =>
    intro e a he ha
    have hn0 : 0 < n := by omega
    rw [pMinus1Loop_eq]
    have hlt : (e : Int) < (e : Int) + ((k + 1 : Nat) : Int) := by push_cast; omega
    have ha1 : bigExp a (e : Int) n = 2 ^ e.factorial % n := bigExp_factorial a n e hn0 he ha
    have hd : gcd (bigExp a (e : Int) n - 1) n = pMinus1RefD n e := by
      rw [gcd_eq_of_pos _ _ hn0, ha1, pMinus1RefD]
    simp only [hlt, if_true, hd, List.range'_succ, List.find?_cons]
    by_cases hgood : 1 < pMinus1RefD n e ∧ pMinus1RefD n e < n
    · simp [hgood]
    · have hdec : decide (1 < pMinus1RefD n e ∧ pMinus1RefD n e < n) = false := by
        simp only [decide_eq_false_iff_not]; exact hgood
      simp only [hgood, if_false, hdec]
      have hb : (e : Int) + ((k + 1 : Nat) : Int) = ((e + 1 : Nat) : Int) + (k : Int) := by
        push_cast; ring
      have he1 : (e : Int) + 1 = ((e + 1 : Nat) : Int) := by push_cast; ring
      rw [hb, he1]
      apply ih (e + 1) _ (by omega)
      rw [ha1]
      simp only [Nat.add_sub_cancel]
      exact Int.mod_modEq _ _

/-- The code with the bound `bLimit = k + 2` is the reference search with the
inclusive bound `B = k + 1`. -/
theorem pollardsPMinus1_eq_reference (n : Int) (hn : 1 < n) (k : Nat) :
    pollardsPMinus1 n ((k : Int) + 2) = pMinus1Reference n (k + 1) := by
  have h := pMinus1Loop_eq_reference n hn k 2 2 (by omega) (by simp [Int.ModEq])
  have hb : (k : Int) + 2 = ((2 : Nat) : Int) + (k : Int) := by push_cast; ring
  rw [pollardsPMinus1, pMinus1Reference, hb]
  simpa using h

theorem toNat_two : Int.toNat 2 = 2 := rfl
theorem toNat_three : Int.toNat 3 = 3 := rfl
theorem toNat_four : Int.toNat 4 = 4 := rfl
theorem toNat_five : Int.toNat 5 = 5 := rfl

theorem pollardsPMinus1_15_2 : pollardsPMinus1 15 2 = none := by
  rw [pollardsPMinus1, pMinus1Loop_eq]; simp

theorem pollardsPMinus1_15_3 : pollardsPMinus1 15 3 = some 3 := by
  rw [pollardsPMinus1, pMinus1Loop_eq]
  norm_num [bigExp, gcd_eq_of_pos, toNat_two]

/-- Once `a = 1` the loop finds nothing: `d = gcd(0, n) = n` at every pass. -/
theorem pMinus1Loop_one (n bLimit : Int) (hn : 1 < n) :
    ∀ (k : Nat) (b : Int), (bLimit - b).toNat ≤ k → pMinus1Loop n bLimit 1 b = none := by
  have hn0 : n ≠ 0 := by omega
  have hexp : ∀ b : Int, bigExp 1 b n = 1 := by
    intro b
    have : (1 : Int) % |n| = 1 := Int.emod_eq_of_lt (by omega) (by rw [abs_of_pos (by omega)]; omega)
    simp [bigExp, hn0, this]
  have hd : gcd ((1 : Int) - 1) n = n := by
    simp [gcd_of_ne_zero 0 n hn0, gcd_zero_right]
  intro k
  induction k with
  | zero =>
    intro b hk
    rw [pMinus1Loop_eq]
    have : ¬ b < bLimit := by omega
    simp [this]
  | succ k ih =>
    intro b hk
    rw [pMinus1Loop_eq, hexp, hd]
    by_cases hb : b < bLimit
    · simp only [hb, if_true, lt_irrefl, and_false, if_false]
      exact ih (b + 1) (by omega)
    · simp [hb]

theorem pollardsPMinus1_341_512 : pollardsPMinus1 341 512 = none := by
  rw [pollardsPMinus1, pMinus1Loop_eq]
  norm_num [bigExp, gcd_eq_of_pos, toNat_two]
  rw [pMinus1Loop_eq]
  norm_num [bigExp, gcd_eq_of_pos, toNat_three]
  rw [pMinus1Loop_eq]
  norm_num [bigExp, gcd_eq_of_pos, toNat_four]
  rw [pMinus1Loop_eq]
  norm_num [bigExp, gcd_eq_of_pos, toNat_five]
  exact pMinus1Loop_one 341 512 (by norm_num) _ 6 (le_refl _)

theorem pollardsPMinus1_5911_5 : pollardsPMinus1 5911 5 = none := by
  rw [pollardsPMinus1, pMinus1Loop_eq]
  norm_num [bigExp, gcd_eq_of_pos, toNat_two]
  rw [pMinus1Loop_eq]
  norm_num [bigExp, gcd_eq_of_pos, toNat_three]
  rw [pMinus1Loop_eq]
  norm_num [bigExp, gcd_eq_of_pos, toNat_four]
  rw [pMinus1Loop_eq]
  norm_num

/-- The reference search succeeds as soon as one exponent of its range does. -/
theorem pMinus1Reference_some (n : Int) (B e0 : Nat) (h2 : 2 ≤ e0) (hB : e0 ≤ B)
    (hgood : 1 < pMinus1RefD n e0 ∧ pMinus1RefD n e0 < n) :
    ∃ d : Int, pMinus1Reference n B = some d := by
  cases h : (List.range' 2 (B - 1)).find?
      (fun e => decide (1 < pMinus1RefD n e ∧ pMinus1RefD n e < n)) with
  | none =>
    exfalso
    rw [List.find?_eq_none] at h
    have hmem : e0 ∈ List.range' 2 (B - 1) := by
      rw [List.mem_range'_1]; omega
    have := h e0 hmem
    simp only [decide_eq_true_eq] at this
    exact this hgood
  | some e =>
    exact ⟨pMinus1RefD n e, by rw [pMinus1Reference, h]; rfl⟩

/-- For an odd prime `p` with `p - 1` dividing `e!`, `p` divides `2^(e!) - 1`. -/
theorem prime_dvd_two_pow_factorial_sub_one (p e : Nat) (hp : p.Prime) (hp2 : p ≠ 2)
    (hdiv : (p - 1) ∣ e.factorial) : (p : Int) ∣ 2 ^ e.factorial - 1 := by
  have hcop : IsCoprime (2 : Int) (p : Int) := by
    rw [Int.isCoprime_iff_gcd_eq_one]
    have : Nat.Coprime 2 p := (Nat.coprime_primes Nat.prime_two hp).mpr (Ne.symm hp2)
    simpa [Int.gcd] using this
  have hflt : (2 : Int) ^ (p - 1) ≡ 1 [ZMOD p] := Int.ModEq.pow_card_sub_one_eq_one hp hcop
  obtain ⟨c, hc⟩ := hdiv
  have h1 : ((2 : Int) ^ (p - 1)) ^ c ≡ 1 ^ c [ZMOD p] := Int.ModEq.pow c hflt
  rw [← pow_mul, ← hc, one_pow] at h1
  exact (Int.modEq_iff_dvd.mp h1.symm)

/-- An exponent `e` with `p - 1 ∣ e!` and `q ∤ 2^(e!) - 1` isolates `p` from `q`:
`d_e` is a proper divisor of `p * q`. -/
theorem pMinus1RefD_good (p q e : Nat) (hp : p.Prime) (hq : q.Prime) (hp2 : p ≠ 2)
    (hdiv : (p - 1) ∣ e.factorial) (hq2 : ¬ (q : Int) ∣ 2 ^ e.factorial - 1) :
    1 < pMinus1RefD ((p : Int) * q) e ∧ pMinus1RefD ((p : Int) * q) e < (p : Int) * q := by
  have hp1 : (1 : Int) < p := by exact_mod_cast hp.one_lt
  have hq1 : (1 : Int) < q := by exact_mod_cast hq.one_lt
  have hn0 : (0 : Int) < (p : Int) * q := by positivity
  set n : Int := (p : Int) * q with hn
  set x : Int := 2 ^ e.factorial with hx
  have hxn : n ∣ x - x % n := ⟨x / n, by have := Int.emod_add_ediv x n; linarith⟩
  have hpn : (p : Int) ∣ n := ⟨q, rfl⟩
  have hqn : (q : Int) ∣ n := ⟨p, by rw [hn]; ring⟩
  have hpx : (p : Int) ∣ x % n - 1 := by
    have h1 := prime_dvd_two_pow_factorial_sub_one p e hp hp2 hdiv
    have h2 : (p : Int) ∣ x - x % n := dvd_trans hpn hxn
    have h3 : x % n - 1 = (x - 1) - (x - x % n) := by ring
    rw [h3]
    exact dvd_sub h1 h2
  have hqx : ¬ (q : Int) ∣ x % n - 1 := by
    intro h
    apply hq2
    have h2 : (q : Int) ∣ x - x % n := dvd_trans hqn hxn
    have h3 : x - 1 = (x % n - 1) + (x - x % n) := by ring
    rw [h3]
    exact dvd_add h h2
  have hDdvd : pMinus1RefD n e ∣ n := by
    rw [pMinus1RefD]; exact Int.gcd_dvd_right
  have hDx : pMinus1RefD n e ∣ x % n - 1 := by
    rw [pMinus1RefD]; exact Int.gcd_dvd_left
  have hpD : (p : Int) ∣ pMinus1RefD n e := by
    rw [pMinus1RefD]; exact Int.dvd_gcd hpx hpn
  have hDpos : 0 < pMinus1RefD n e := by
    rw [pMinus1RefD]
    exact_mod_cast Int.gcd_pos_of_ne_zero_right _ (by omega)
  have hple : (p : Int) ≤ pMinus1RefD n e := Int.le_of_dvd hDpos hpD
  have hDle : pMinus1RefD n e ≤ n := Int.le_of_dvd hn0 hDdvd
  have hDne : pMinus1RefD n e ≠ n := by
    intro h
    apply hqx
    rw [h] at hDx
    exact dvd_trans hqn hDx
  exact ⟨by omega, by omega⟩

/-- C3: whenever `pollardsPMinus1(n, B)` returns a non-nil `d` (for every `n`,
in particular `n > 1`, and every bound `B`), `1 < d < n` and `d ∣ n`, and
`findFactors(n, B)` returns `(d, n/d)` whose product is exactly `n`, so the
verification test of `main` passes; on `nil` it returns `(nil, nil)`. -/
theorem pMinus1_findFactors_sound (n B : Int) :
    (∀ d : Int, pollardsPMinus1 n B = some d →
      1 < d ∧ d < n ∧ d ∣ n ∧
        pMinus1FindFactors n B = Run.ret (some (d, n / d)) ∧ d * (n / d) = n ∧
        verificationTest n (d, n / d) = true) ∧
    (pollardsPMinus1 n B = none → pMinus1FindFactors n B = Run.ret none) := by
  constructor
  · intro d h
    obtain ⟨h1, h2, h3⟩ := pollardsPMinus1_sound n B d h
    have hd0 : d ≠ 0 := by omega
    have hmul : d * (n / d) = n := Int.mul_ediv_cancel' h3
    refine ⟨h1, h2, h3, ?_, hmul, ?_⟩
    · simp [pMinus1FindFactors, h, hd0]
    · simp [verificationTest, hmul]
  · intro h
    simp [pMinus1FindFactors, h]

/-- Witness of `pMinus1_findFactors_sound` at `n = 15`, `B = 3`, `d = 3`. -/
theorem pMinus1_findFactors_sound_witness :
    pollardsPMinus1 15 3 = some 3 ∧
      ((1 : Int) < 3 ∧ (3 : Int) < 15 ∧ (3 : Int) ∣ 15 ∧
        pMinus1FindFactors 15 3 = Run.ret (some (3, 15 / 3)) ∧ (3 : Int) * (15 / 3) = 15 ∧
        verificationTest 15 (3, 15 / 3) = true) :=
  ⟨pollardsPMinus1_15_3, (pMinus1_findFactors_sound 15 3).1 3 pollardsPMinus1_15_3⟩

/-- C4 (fails on the code): with `n = 15` and `B = 2` the loop
`for b < bLimit` of `pollardsPMinus1` makes no pass and returns `nil`, where the
reference search over `e = 2, ..., B` inclusive returns `d_2 = 3`; for every
`n ≥ 2` and every bound `bLimit = k + 2` the code is the reference search with
the bound `k + 1 = bLimit - 1`. -/
theorem pMinus1_bound_excluded :
    pollardsPMinus1 15 2 = none ∧ pMinus1Reference 15 2 = some 3 ∧
    (∀ m k : Nat,
      pollardsPMinus1 ((m : Int) + 2) ((k : Int) + 2) = pMinus1Reference ((m : Int) + 2) (k + 1)) :=
  ⟨pollardsPMinus1_15_2, by decide,
    fun m k => pollardsPMinus1_eq_reference ((m : Int) + 2) (by omega) k⟩

/-- C5 (counterexample): `341 = 11 * 31` with `B = 512`, where `10` and `30`
are `512`-smooth, and `5911 = 23 * 257` with `B = 5`, where `256` is
`5`-smooth: `pollardsPMinus1` returns `nil` on both. -/
theorem pMinus1_smooth_not_found :
    (Nat.Prime 11 ∧ Nat.Prime 31 ∧ (341 : Int) = 11 * 31 ∧
      (∀ r : Nat, r.Prime → r ∣ 11 - 1 → (r : Int) ≤ 512) ∧
      (∀ r : Nat, r.Prime → r ∣ 31 - 1 → (r : Int) ≤ 512) ∧
      pollardsPMinus1 341 512 = none) ∧
    (Nat.Prime 257 ∧ Nat.Prime 23 ∧ (5911 : Int) = 257 * 23 ∧
      (∀ r : Nat, r.Prime → r ∣ 257 - 1 → (r : Int) ≤ 5) ∧
      pollardsPMinus1 5911 5 = none) := by
  refine ⟨⟨by norm_num, by norm_num, by norm_num, ?_, ?_, pollardsPMinus1_341_512⟩,
    ⟨by norm_num, by norm_num, by norm_num, ?_, pollardsPMinus1_5911_5⟩⟩
  · intro r _ hr
    have := Nat.le_of_dvd (by norm_num) hr
    omega
  · intro r _ hr
    have := Nat.le_of_dvd (by norm_num) hr
    omega
  · intro r hr hdvd
    have h256 : (257 - 1 : Nat) = 2 ^ 8 := by norm_num
    rw [h256] at hdvd
    have := (Nat.prime_dvd_prime_iff_eq hr Nat.prime_two).mp (hr.dvd_of_dvd_pow hdvd)
    omega

/-- C5 (amended): for `N = p * q` with `p`, `q` distinct primes, `p` odd, and
a bound `B` such that some exponent `e` with `2 ≤ e < B` has `p - 1 ∣ e!` and
`q ∤ 2^(e!) - 1`, `pollardsPMinus1(N, B)` returns a non-trivial factor `d` of
`N`: `1 < d < N` and `d ∣ N`. -/
theorem pMinus1_finds_factor (p q : Nat) (hp : p.Prime) (hq : q.Prime) (_hpq : p ≠ q)
    (hp2 : p ≠ 2) (B : Int) (e : Nat) (he : 2 ≤ e) (heB : (e : Int) < B)
    (hdiv : (p - 1) ∣ e.factorial) (hq2 : ¬ (q : Int) ∣ 2 ^ e.factorial - 1) :
    ∃ d : Int, pollardsPMinus1 ((p : Int) * q) B = some d ∧
      1 < d ∧ d < (p : Int) * q ∧ d ∣ (p : Int) * q := by
  have hp1 : (1 : Int) < p := by exact_mod_cast hp.one_lt
  have hq1 : (1 : Int) < q := by exact_mod_cast hq.one_lt
  have hn : (1 : Int) < (p : Int) * q := by nlinarith
  obtain ⟨k, hk⟩ : ∃ k : Nat, B = (k : Int) + 2 := ⟨(B - 2).toNat, by omega⟩
  have hgood := pMinus1RefD_good p q e hp hq hp2 hdiv hq2
  obtain ⟨d, hd⟩ := pMinus1Reference_some ((p : Int) * q) (k + 1) e he (by omega) hgood
  have hcode : pollardsPMinus1 ((p : Int) * q) B = some d := by
    rw [hk, pollardsPMinus1_eq_reference _ hn k, hd]
  exact ⟨d, hcode, pollardsPMinus1_sound _ _ d hcode⟩

/-- Witness of `pMinus1_finds_factor` at `p = 3`, `q = 5`, `B = 3`, `e = 2`. -/
theorem pMinus1_finds_factor_witness :
    ∃ d : Int, pollardsPMinus1 (((3 : Nat) : Int) * (5 : Nat)) 3 = some d ∧
      1 < d ∧ d < ((3 : Nat) : Int) * (5 : Nat) ∧ d ∣ ((3 : Nat) : Int) * (5 : Nat) :=
  pMinus1_finds_factor 3 5 (by norm_num) (by norm_num) (by decide) (by decide) 3 2
    (by decide) (by decide) (by decide) (by decide)

/-! ## The parallel worker -/

theorem workerLoop_eq (n end_ a bSquared b : Int) :
    workerLoop n end_ a bSquared b =
      if a ≤ end_ then
        if bSquared = b * b then some (a - b * b, a + b * b)
        else workerLoop n end_ (a + 1) ((a + 1) * (a + 1) - n) (b * b)
      else none := by
  rw [workerLoop]

/-- The local `b` of the worker stays `0`, so a pair is sent only for a
candidate `c` of the range with `c * c = n`, and the pair is `(c, c)`. -/
theorem workerLoop_some (n end_ : Int) :
    ∀ (k : Nat) (a : Int) (pr : Int × Int), (end_ + 1 - a).toNat ≤ k →
      workerLoop n end_ a (a * a - n) 0 = some pr →
      ∃ c : Int, a ≤ c ∧ c ≤ end_ ∧ c * c = n ∧ pr = (c, c) := by
  intro k
  induction k with
  | zero =>
    intro a pr hk h
    rw [workerLoop_eq] at h
    have : ¬ a ≤ end_ := by omega
    simp [this] at h
  | succ k ih =>
    intro a pr hk h
    rw [workerLoop_eq] at h
    by_cases ha : a ≤ end_
    · simp only [ha, if_true, mul_zero, sub_zero, add_zero] at h
      by_cases hsq : a * a - n = 0
      · simp only [hsq, if_true] at h
        refine ⟨a, le_refl _, ha, by omega, ?_⟩
        simpa using h.symm
      · simp only [hsq, if_false] at h
        obtain ⟨c, hc1, hc2, hc3, hc4⟩ := ih (a + 1) pr (by omega) h
        exact ⟨c, by omega, hc2, hc3, hc4⟩
    · simp [ha] at h

/-- A worker sends nothing when `n` is not the square of a candidate of its
range. -/
theorem parallelFermatFactorization_none (n start end_ : Int)
    (h : ∀ c : Int, start ≤ c → c ≤ end_ → c * c ≠ n) :
    parallelFermatFactorization n start end_ = none := by
  cases hr : parallelFermatFactorization n start end_ with
  | none => rfl
  | some pr =>
    exfalso
    obtain ⟨c, hc1, hc2, hc3, _⟩ := workerLoop_some n end_ _ start pr (le_refl _) hr
    exact h c hc1 hc2 hc3

/-- No worker launched by `main` sends a pair when `n` is not a square. -/
theorem mainEmitted_of_not_square (n : Int) (hn : 0 ≤ n) (W : Nat)
    (h : ∀ c : Int, c * c ≠ n) : mainEmitted n (W + 1) = some [] := by
  have hs := bigSqrt_of_nonneg n hn
  simp only [mainEmitted, mainRanges, hs, Nat.succ_ne_zero, if_false, Option.map_some']
  congr 1
  rw [List.filterMap_eq_nil_iff]
  intro r _
  exact parallelFermatFactorization_none n r.1 r.2 (fun c _ _ => h c)

theorem eight_not_square (c : Int) : c * c ≠ 8 := by
  intro h
  have h1 : c < 3 := by nlinarith
  have h2 : -3 < c := by nlinarith
  interval_cases c <;> omega

/-- C9 (fails on the code): on `N = 8` the sequential `fermatFactorization`
returns the pair `(2, 6)`, and for every worker count `W ≥ 1` no worker
launched by `main` of `parallel-fermat.go` sends a pair, so the parallel
program reports "No factors found". -/
theorem parallel_differs_from_sequential :
    (∀ k : Nat, fermatFactorization (k + 2) 8 = Run.ret (some (2, 6))) ∧
    (∀ W : Nat, mainEmitted 8 (W + 1) = some []) :=
  ⟨fermatFactorization_eight,
    fun W => mainEmitted_of_not_square 8 (by norm_num) W eight_not_square⟩

/-- C10 (fails on the code): for `n = 143` and the range `[12, 143]` the
candidate `a = 12` has `a*a - n = 1 = 1*1`, which would give `(11, 13)`, and the
worker `parallelFermatFactorization` sends nothing. -/
theorem worker_143_sends_nothing :
    (12 : Int) * 12 - 143 = 1 * 1 ∧ ((12 : Int) - 1, (12 : Int) + 1) = (11, 13) ∧
      parallelFermatFactorization 143 12 143 = none := by
  refine ⟨by norm_num, by norm_num, ?_⟩
  apply parallelFermatFactorization_none
  intro c h1 _ h
  nlinarith

/-! ## The ranges built in main -/

theorem rangesLoop_eq (n increment : Int) (numThreads i : Nat) (start : Int) :
    rangesLoop n increment numThreads i start =
      if i < numThreads then
        (start, if i = numThreads - 1 then n + 1 else start + increment) ::
          rangesLoop n increment numThreads (i + 1)
            ((if i = numThreads - 1 then n + 1 else start + increment) + 1)
      else [] := by
  rw [rangesLoop]

/-- Closed form of the range loop: the `j`-th range launched from the counter
`i` starts at `start + j * (increment + 1)`. -/
theorem rangesLoop_closed (n increment : Int) (numThreads : Nat) :
    ∀ (k i : Nat) (start : Int), numThreads - i = k →
      rangesLoop n increment numThreads i start =
        (List.range k).map (fun j : Nat =>
          (start + j * (increment + 1),
            if i + j = numThreads - 1 then n + 1
            else start + j * (increment + 1) + increment)) := by
  intro k
  induction k with
  | zero =>
    intro i start hk
    rw [rangesLoop_eq]
    have : ¬ i < numThreads := by omega
    simp [this]
  | succ k ih =>
    intro i start hk
    rw [rangesLoop_eq]
    have hi : i < numThreads := by omega
    simp only [hi, if_true, List.range_succ_eq_map, List.map_cons, List.map_map]
    congr 1
    · simp
    · by_cases hlast : i = numThreads - 1
      · have hk0 : k = 0 := by omega
        subst hk0
        rw [rangesLoop_eq]
        have : ¬ i + 1 < numThreads := by omega
        simp [this]
      · simp only [hlast, if_false]
        rw [ih (i + 1) _ (by omega)]
        apply List.map_congr_left
        intro j _
        simp only [Function.comp, Nat.succ_eq_add_one]
        have e1 : i + 1 + j = i + (j + 1) := by omega
        rw [e1]
        have e2 : start + increment + 1 + (j : Int) * (increment + 1) =
            start + ((j + 1 : Nat) : Int) * (increment + 1) := by push_cast; ring
        rw [e2]

/-- Closed form of the ranges of `main`: `increment = 1 / numThreads`, so the
`j`-th range is the single candidate `floor(sqrt n) + j`, except the last,
which runs to `n + 1`. -/
theorem mainRanges_closed (n : Int) (hn : 0 ≤ n) (W : Nat) :
    mainRanges n (W + 1) =
      some ((List.range (W + 1)).map (fun j : Nat =>
        ((Nat.sqrt n.toNat : Int) + j,
          if j = W then n + 1 else (Nat.sqrt n.toNat : Int) + j))) := by
  have hs := bigSqrt_of_nonneg n hn
  simp only [mainRanges, hs, Nat.succ_ne_zero, if_false]
  rw [rangesLoop_closed n _ (W + 1) (W + 1) 0 _ (by omega)]
  congr 1
  apply List.map_congr_left
  intro j hj
  have hjW : j < W + 1 := List.mem_range.mp hj
  have hone : (Int.ofNat (Nat.sqrt n.toNat) + 1 - Int.ofNat (Nat.sqrt n.toNat)) = 1 := by ring
  rw [hone]
  by_cases hW : W = 0
  · subst hW
    have hj0 : j = 0 := by omega
    subst hj0
    simp
  · have hdiv : (1 : Int) / ((W + 1 : Nat) : Int) = 0 := by
      apply Int.ediv_eq_zero_of_lt (by norm_num)
      push_cast; omega
    rw [hdiv]
    simp

theorem sqrt_143 : Nat.sqrt 143 = 11 := by
  symm; rw [Nat.eq_sqrt]; omega

theorem mainRanges_143_4 :
    mainRanges 143 4 = some [(11, 11), (12, 12), (13, 13), (14, 144)] := by
  have h := mainRanges_closed 143 (by norm_num) 3
  have ht : Int.toNat 143 = 143 := rfl
  rw [ht, sqrt_143] at h
  rw [h]
  decide

theorem ceilSqrt_143 : ceilSqrt 143 = 12 := by
  have ht : Int.toNat 143 = 143 := rfl
  simp only [ceilSqrt, ht, sqrt_143]
  norm_num

theorem sqrt_le_ceilSqrt (n : Int) : (Nat.sqrt n.toNat : Int) ≤ ceilSqrt n := by
  unfold ceilSqrt
  split <;> omega

/-- C11 (counterexample): for `N = 143` and `W = 4` the ranges built in `main`
are `[11,11], [12,12], [13,13], [14,144]`; the interval of the claim is
`[12, 143]`, so the first range holds `11` and the last holds `144`, both
outside it. -/
theorem ranges_143_leave_interval :
    mainRanges 143 4 = some [(11, 11), (12, 12), (13, 13), (14, 144)] ∧
    ceilSqrt 143 = 12 ∧
    ¬ (∀ rs, mainRanges 143 4 = some rs →
        ∀ r ∈ rs, ∀ x : Int, r.1 ≤ x → x ≤ r.2 → ceilSqrt 143 ≤ x ∧ x ≤ 143) := by
  refine ⟨mainRanges_143_4, ceilSqrt_143, ?_⟩
  intro h
  have := h _ mainRanges_143_4 (14, 144) (by simp) 144 (by norm_num) (by norm_num)
  omega

/-- C11 (amended): for every `N > 1` and `W ≥ 1`, `main` builds `W` ranges,
every integer of `[ceil(sqrt(N)), N]`, and indeed of
`[floor(sqrt(N)), N + 1]`, lies in exactly one of them, and an integer that
lies in a range is at least `floor(sqrt(N))`. -/
theorem ranges_cover_once (N : Int) (hN : 1 < N) (W : Nat) (hW : 1 ≤ W) :
    ∃ rs : List (Int × Int), mainRanges N W = some rs ∧ rs.length = W ∧
      (∀ x : Int, ceilSqrt N ≤ x → x ≤ N →
        ∃! j : Nat, ∃ r, rs[j]? = some r ∧ r.1 ≤ x ∧ x ≤ r.2) ∧
      (∀ x : Int, (Nat.sqrt N.toNat : Int) ≤ x → x ≤ N + 1 →
        ∃! j : Nat, ∃ r, rs[j]? = some r ∧ r.1 ≤ x ∧ x ≤ r.2) ∧
      (∀ r ∈ rs, ∀ x : Int, r.1 ≤ x → x ≤ r.2 → (Nat.sqrt N.toNat : Int) ≤ x) := by
  obtain ⟨V, rfl⟩ : ∃ V, W = V + 1 := ⟨W - 1, by omega⟩
  set s : Int := (Nat.sqrt N.toNat : Int) with hs
  have hclosed := mainRanges_closed N (by omega) V
  rw [← hs] at hclosed
  have hget : ∀ (j : Nat) (r : Int × Int),
      ((List.range (V + 1)).map (fun j : Nat =>
        (s + j, if j = V then N + 1 else s + j)))[j]? = some r ↔
      j < V + 1 ∧ r = (s + j, if j = V then N + 1 else s + j) := by
    intro j r
    rw [List.getElem?_map]
    by_cases hj : j < V + 1
    · rw [List.getElem?_range hj]
      simp only [Option.map_some', Option.some.injEq, hj, true_and]
      exact eq_comm
    · rw [List.getElem?_eq_none (by simpa using hj)]
      simp [hj]
  have hcover : ∀ x : Int, s ≤ x → x ≤ N + 1 →
      ∃! j : Nat, ∃ r,
        ((List.range (V + 1)).map (fun j : Nat =>
          (s + j, if j = V then N + 1 else s + j)))[j]? = some r ∧ r.1 ≤ x ∧ x ≤ r.2 := by
    intro x hx1 hx2
    by_cases hlast : s + V ≤ x
    · refine ⟨V, ⟨_, (hget V _).mpr ⟨by omega, rfl⟩, by simpa using hlast, by simpa using hx2⟩, ?_⟩
      rintro j ⟨r, hr, h1, h2⟩
      obtain ⟨hj, rfl⟩ := (hget j r).mp hr
      by_cases hjV : j = V
      · exact hjV
      · simp only [hjV, if_false] at h2
        simp only at h1
        omega
    · refine ⟨(x - s).toNat, ⟨_, (hget _ _).mpr ⟨by omega, rfl⟩, ?_, ?_⟩, ?_⟩
      · simp only
        omega
      · have : (x - s).toNat ≠ V := by omega
        simp only [this, if_false]
        omega
      · rintro j ⟨r, hr, h1, h2⟩
        obtain ⟨hj, rfl⟩ := (hget j r).mp hr
        by_cases hjV : j = V
        · subst hjV
          simp only at h1
          omega
        · simp only [hjV, if_false] at h2
          simp only at h1
          omega
  refine ⟨_, hclosed, by simp, ?_, hcover, ?_⟩
  · intro x hx1 hx2
    exact hcover x (le_trans (sqrt_le_ceilSqrt N) hx1) (by omega)
  · intro r hr x h1 h2
    obtain ⟨j, _, rfl⟩ := List.mem_map.mp hr
    simp only at h1
    omega

/-- Witness of `ranges_cover_once` at `N = 143`, `W = 4`. -/
theorem ranges_cover_once_witness :
    ∃ rs : List (Int × Int), mainRanges 143 4 = some rs ∧ rs.length = 4 ∧
      (∀ x : Int, ceilSqrt 143 ≤ x → x ≤ 143 →
        ∃! j : Nat, ∃ r, rs[j]? = some r ∧ r.1 ≤ x ∧ x ≤ r.2) ∧
      (∀ x : Int, (Nat.sqrt (143 : Int).toNat : Int) ≤ x → x ≤ 143 + 1 →
        ∃! j : Nat, ∃ r, rs[j]? = some r ∧ r.1 ≤ x ∧ x ≤ r.2) ∧
      (∀ r ∈ rs, ∀ x : Int, r.1 ≤ x → x ≤ r.2 →
        (Nat.sqrt (143 : Int).toNat : Int) ≤ x) :=
  ranges_cover_once 143 (by decide) 4 (by decide)

/-- C15 (fails on the code): `increment` is `((start + 1) - start) / numThreads`,
that is `1 / numThreads`, so for every `N ≥ 0` and `W + 1` workers each range
but the last is the single candidate `floor(sqrt N) + j` and the last runs to
`N + 1`. For `N = 143`, `W = 4` the ranges hold `1, 1, 1, 131` candidates,
where `L = 134` and near-equal sizes would be `33, 33, 33, 35`. -/
theorem ranges_not_near_equal :
    (∀ (N W : Nat), mainRanges (N : Int) (W + 1) =
      some ((List.range (W + 1)).map (fun j : Nat =>
        ((Nat.sqrt N : Int) + j, if j = W then (N : Int) + 1 else (Nat.sqrt N : Int) + j)))) ∧
    (mainRanges 143 4).map (fun rs => rs.map (fun r => r.2 - r.1 + 1)) = some [1, 1, 1, 131] ∧
    ((144 : Int) - 11 + 1 = 134 ∧ (134 : Int) / 4 = 33 ∧ (134 : Int) % 4 = 2) := by
  refine ⟨?_, ?_, by norm_num, by norm_num, by norm_num⟩
  · intro N W
    have h := mainRanges_closed (N : Int) (Int.ofNat_nonneg N) W
    simpa using h
  · rw [mainRanges_143_4]
    decide

/-! ## Inputs `n ≤ 1` -/

/-- The recursive `gcd` divides both arguments, whatever their signs. -/
theorem gcd_dvd_both : ∀ (k : Nat) (a b : Int), b.natAbs ≤ k →
    gcd a b ∣ a ∧ gcd a b ∣ b := by
  intro k
  induction k with
  | zero =>
    intro a b hk
    have hb : b = 0 := by omega
    subst hb
    rw [gcd_zero_right]
    exact ⟨dvd_refl a, dvd_zero a⟩
  | succ k ih =>
    intro a b hk
    by_cases hb0 : b = 0
    · subst hb0
      rw [gcd_zero_right]
      exact ⟨dvd_refl a, dvd_zero a⟩
    · rw [gcd_of_ne_zero a b hb0]
      have h1 : 0 ≤ a % b := Int.emod_nonneg a hb0
      have h2 : a % b < |b| := Int.emod_lt a hb0
      rw [Int.abs_eq_natAbs] at h2
      obtain ⟨hd1, hd2⟩ := ih b (a % b) (by omega)
      refine ⟨?_, hd1⟩
      have hsplit : a % b + b * (a / b) = a := Int.emod_add_ediv a b
      have h3 : gcd b (a % b) ∣ a % b + b * (a / b) :=
        dvd_add hd2 (Dvd.dvd.mul_right hd1 _)
      rwa [hsplit] at h3

theorem fVal_range_abs (n x : Int) (hn : n ≠ 0) : 0 ≤ fVal n x ∧ fVal n x < |n| :=
  ⟨Int.emod_nonneg _ hn, Int.emod_lt _ hn⟩

theorem xSeq_range_abs (n : Int) (hn : n ≠ 0) (i : Nat) :
    0 ≤ xSeq n (i + 1) ∧ xSeq n (i + 1) < |n| := by
  rw [xSeq_succ]; exact fVal_range_abs n _ hn

/-- Two iterates of `f` on the seed coincide, for every modulus `n ≠ 0`. -/
theorem xSeq_collision_abs (n : Int) (hn : n ≠ 0) :
    ∃ m l : Nat, 0 < m ∧ 0 < l ∧ xSeq n (m + l) = xSeq n m := by
  let N := n.natAbs
  have hN : (N : Int) = |n| := (Int.abs_eq_natAbs n).symm
  let h : Fin (N + 1) → Fin N := fun j =>
    ⟨(xSeq n (j.val + 1)).toNat, by
      have := xSeq_range_abs n hn j.val
      omega⟩
  have hcard : Fintype.card (Fin N) < Fintype.card (Fin (N + 1)) := by simp
  obtain ⟨j, k, hjk, heq⟩ := Fintype.exists_ne_map_eq_of_card_lt h hcard
  have heq2 : xSeq n (j.val + 1) = xSeq n (k.val + 1) := by
    have h1 := congrArg Fin.val heq
    simp only [h] at h1
    have hj := xSeq_range_abs n hn j.val
    have hk := xSeq_range_abs n hn k.val
    omega
  have hne : j.val ≠ k.val := fun hh => hjk (Fin.ext hh)
  rcases Nat.lt_or_gt_of_ne hne with hlt | hgt
  · refine ⟨j.val + 1, k.val - j.val, by omega, by omega, ?_⟩
    have h2 : j.val + 1 + (k.val - j.val) = k.val + 1 := by omega
    rw [h2, heq2]
  · refine ⟨k.val + 1, j.val - k.val, by omega, by omega, ?_⟩
    have h2 : k.val + 1 + (j.val - k.val) = j.val + 1 := by omega
    rw [h2, heq2]

theorem tortoise_meets_hare_abs (n : Int) (hn : n ≠ 0) :
    ∃ i : Nat, 0 < i ∧ xSeq n i = ySeq n i := by
  obtain ⟨m, l, hm, hl, h⟩ := xSeq_collision_abs n hn
  refine ⟨m * l, Nat.mul_pos hm hl, ?_⟩
  have hle : m ≤ m * l := Nat.le_mul_of_pos_right m hl
  have h1 := xSeq_periodic n m l h m (m * l) hle
  have h2 : ySeq n (m * l) = xSeq n (m * l + m * l) := by
    simp [ySeq, xSeq, two_mul]
  rw [h2, h1]

theorem dVal_self_of_ne_zero (n x : Int) (hn : n ≠ 0) : dVal n x x = n := by
  simp [dVal, gcd_of_ne_zero 0 n hn, gcd_zero_right]

/-- On a negative `n` the loop of `pollardsRho` ends: with enough fuel it
returns a `d ≠ 1` that divides `n`. -/
theorem rhoLoop_returns_neg (n : Int) (hn : n < 0) :
    ∃ (i : Nat) (d : Int), d ≠ 1 ∧ d ∣ n ∧
      (∀ fuel, i < fuel → rhoLoop n fuel 2 2 1 = Run.ret d) ∧
      (∀ fuel, fuel ≤ i → rhoLoop n fuel 2 2 1 = Run.timeout) := by
  have hn0 : n ≠ 0 := by omega
  have hex : ∃ i : Nat, dSeq n i ≠ 1 := by
    obtain ⟨i, hi, h⟩ := tortoise_meets_hare_abs n hn0
    refine ⟨i, ?_⟩
    have hi0 : i ≠ 0 := by omega
    simp only [dSeq, hi0, if_false]
    rw [← h, dVal_self_of_ne_zero n _ hn0]
    omega
  have hne : dSeq n (Nat.find hex) ≠ 1 := Nat.find_spec hex
  have hmin : ∀ j, j < Nat.find hex → dSeq n j = 1 := fun j hj =>
    not_not.mp (Nat.find_min hex hj)
  have hi0 : Nat.find hex ≠ 0 := by
    intro h0
    rw [h0] at hne
    simp [dSeq] at hne
  refine ⟨Nat.find hex, dSeq n (Nat.find hex), hne, ?_, ?_, ?_⟩
  · simp only [dSeq, hi0, if_false, dVal]
    exact (gcd_dvd_both _ _ n (le_refl _)).2
  · intro fuel hfuel
    obtain ⟨k, rfl⟩ : ∃ k, fuel = Nat.find hex + (k + 1) := ⟨fuel - Nat.find hex - 1, by omega⟩
    rw [rhoLoop_run n hn0 _ _ hmin]
    simp [rhoLoop, hne]
  · intro fuel hfuel
    have h := rhoLoop_run n hn0 fuel 0 (fun j hj => hmin j (by omega))
    rw [Nat.add_zero] at h
    rw [h]
    rfl

theorem pollardsRho_returns_neg (n : Int) (hn : n < 0) :
    ∃ (passes : Nat) (r : Option Int),
      (∀ fuel, passes < fuel → pollardsRho fuel n = Run.ret r) ∧
      (∀ fuel, fuel ≤ passes → pollardsRho fuel n = Run.timeout) ∧
      (∀ d, r = some d → d ∣ n ∧ d ≠ 1 ∧ d ≠ n) := by
  obtain ⟨i, d, hd1, hdvd, hrun, hout⟩ := rhoLoop_returns_neg n hn
  by_cases hdeq : d = n
  · refine ⟨i, none, ?_, ?_, by simp⟩
    · intro fuel hfuel
      simp [pollardsRho, hrun fuel hfuel, hdeq]
    · intro fuel hfuel
      simp [pollardsRho, hout fuel hfuel]
  · refine ⟨i, some d, ?_, ?_, ?_⟩
    · intro fuel hfuel
      simp [pollardsRho, hrun fuel hfuel, hdeq]
    · intro fuel hfuel
      simp [pollardsRho, hout fuel hfuel]
    · intro d' hd'
      have : d' = d := by simpa using hd'.symm
      subst this
      exact ⟨hdvd, hd1, hdeq⟩

/-- On `n = 1` the loop of `pollardsRho` never ends: `d` is `gcd(·, 1) = 1` at
every pass. -/
theorem pollardsRho_one (fuel : Nat) : pollardsRho fuel 1 = Run.timeout := by
  have hd : ∀ j, dSeq 1 j = 1 := by
    intro j
    by_cases hj : j = 0
    · simp [dSeq, hj]
    · simp only [dSeq, hj, if_false, dVal]
      rw [gcd_of_ne_zero _ 1 (by norm_num), Int.emod_one, gcd_zero_right]
  have h := rhoLoop_run 1 (by norm_num) fuel 0 (fun j _ => hd j)
  rw [Nat.add_zero] at h
  simp only [pollardsRho, h]
  rfl

/-- On `n = 0` the first call of `f` panics (`Mod` by zero). -/
theorem pollardsRho_zero (k : Nat) : pollardsRho (k + 1) 0 = Run.crash := by
  simp [pollardsRho, rhoLoop, rhoStep, f]

theorem fermatFactorization_neg (n : Int) (hn : n < 0) (fuel : Nat) :
    fermatFactorization fuel n = Run.crash := by
  simp [fermatFactorization, bigSqrt, hn]

theorem fermatFactorization_zero (fuel : Nat) : fermatFactorization fuel 0 = Run.timeout := by
  have hs : bigSqrt 0 = some 0 := by
    rw [bigSqrt_of_nonneg _ (le_refl _)]; simp
  have hloop : fermatLoop 0 fuel (0 + 1) ((0 + 1) * (0 + 1) - 0) 0 = Run.timeout := by
    apply fermatLoop_timeout
    intro k
    have h3 : 0 ≤ (k : Int) := Int.ofNat_nonneg _
    constructor
    · nlinarith
    · nlinarith
  simp only [fermatFactorization, hs, hloop]

theorem fermatFactorization_one (fuel : Nat) : fermatFactorization fuel 1 = Run.timeout := by
  have := fermatFactorization_timeout 1 (sq_ne_two_mul_odd 1 (by omega)) fuel
  simpa using this

theorem pollardsPMinus1_of_le_one (n B : Int) (hn : n ≤ 1) : pollardsPMinus1 n B = none := by
  cases h : pollardsPMinus1 n B with
  | none => rfl
  | some d =>
    have := pollardsPMinus1_sound n B d h
    omega

theorem pollardsPMinus1_of_bound_le (n B : Int) (hB : B ≤ 2) : pollardsPMinus1 n B = none := by
  rw [pollardsPMinus1, pMinus1Loop_eq]
  have : ¬ (2 : Int) < B := by omega
  simp [this]

/-- C12 (counterexample): on `n = 1` the loop of `pollardsRho` runs forever,
and `pollardsPMinus1` returns `nil` (NotFound) on `n = 1` with bound `10` and on
`n = 15` with bound `1`: no call fails with an error. -/
theorem invalid_input_not_rejected :
    (∀ fuel : Nat, pollardsRho fuel 1 = Run.timeout) ∧
    pollardsPMinus1 1 10 = none ∧ pollardsPMinus1 15 1 = none :=
  ⟨pollardsRho_one,
    pollardsPMinus1_of_le_one 1 10 (by decide),
    pollardsPMinus1_of_bound_le 15 1 (by decide)⟩

/-- C12 (amended): no function checks its input. For `n ≤ 1` (and every
bound), and for every `n` with a bound `≤ 1`, `pollardsPMinus1` returns `nil`
(NotFound); `fermatFactorization` panics in `Sqrt` when `n < 0`; `pollardsRho`
panics in `Mod` when `n = 0`, runs forever when `n = 1`, and when `n < 0`
terminates with `nil` or a divisor `d` of `n` other than `1` and `n`. -/
theorem input_not_validated :
    (∀ n B : Int, n ≤ 1 → pollardsPMinus1 n B = none) ∧
    (∀ n B : Int, B ≤ 1 → pollardsPMinus1 n B = none) ∧
    (∀ (n : Int) (fuel : Nat), n < 0 → fermatFactorization fuel n = Run.crash) ∧
    (∀ k : Nat, pollardsRho (k + 1) 0 = Run.crash) ∧
    (∀ fuel : Nat, pollardsRho fuel 1 = Run.timeout) ∧
    (∀ n : Int, n < 0 →
      ∃ (passes : Nat) (r : Option Int),
        (∀ fuel, passes < fuel → pollardsRho fuel n = Run.ret r) ∧
        (∀ fuel, fuel ≤ passes → pollardsRho fuel n = Run.timeout) ∧
        (∀ d, r = some d → d ∣ n ∧ d ≠ 1 ∧ d ≠ n)) :=
  ⟨pollardsPMinus1_of_le_one,
    fun n B hB => pollardsPMinus1_of_bound_le n B (by omega),
    fun n fuel hn => fermatFactorization_neg n hn fuel,
    pollardsRho_zero, pollardsRho_one, pollardsRho_returns_neg⟩

/-- Witness of `input_not_validated` at `n = 1`, `B = 10`; `n = 15`, `B = 1`;
`n = -1`; `n = -15`. -/
theorem input_not_validated_witness :
    pollardsPMinus1 1 10 = none ∧ pollardsPMinus1 15 1 = none ∧
    fermatFactorization 5 (-1) = Run.crash ∧
    (∃ (passes : Nat) (r : Option Int),
      (∀ fuel, passes < fuel → pollardsRho fuel (-15) = Run.ret r) ∧
      (∀ fuel, fuel ≤ passes → pollardsRho fuel (-15) = Run.timeout) ∧
      (∀ d, r = some d → d ∣ (-15 : Int) ∧ d ≠ 1 ∧ d ≠ -15)) :=
  ⟨input_not_validated.1 1 10 (by decide),
    input_not_validated.2.1 15 1 (by decide),
    input_not_validated.2.2.1 (-1) 5 (by decide),
    input_not_validated.2.2.2.2.2 (-15) (by decide)⟩

/-! ## The loop invariant of the sequential Fermat search -/

/-- Running the loop from the start is running it from the state reached at
the `k`-th evaluation of its condition. -/
theorem fermatLoop_from_state (n : Int) :
    ∀ (k fuel : Nat) (a bSquared b : Int) (s : Int × Int × Int),
      fermatStateAt n k a bSquared b = some s →
      fermatLoop n (k + fuel) a bSquared b = fermatLoop n fuel s.1 s.2.1 s.2.2 := by
  intro k
  induction k with
  | zero =>
    intro fuel a bSquared b s h
    simp only [fermatStateAt, Option.some.injEq] at h
    subst h
    simp
  | succ k ih =>
    intro fuel a bSquared b s h
    have e : k + 1 + fuel = (k + fuel) + 1 := by omega
    rw [e, fermatLoop]
    rw [fermatStateAt] at h
    by_cases h0 : 0 ≤ bSquared
    · simp only [h0, if_true, bigSqrt_of_nonneg _ h0] at h ⊢
      by_cases heq : bSquared = n
      · simp [heq] at h
      · simp only [heq, if_false] at h ⊢
        exact ih fuel _ _ _ s h
    · simp [h0] at h

/-- The invariant of the loop: at the `k`-th evaluation of the condition
`a` is the start plus `k` and `bSquared = a*a - n > 0`. -/
theorem fermatStateAt_inv (n : Int) :
    ∀ (k : Nat) (a b : Int) (s : Int × Int × Int), 0 ≤ a → n < a * a →
      fermatStateAt n k a (a * a - n) b = some s →
      s.1 = a + k ∧ s.2.1 = s.1 * s.1 - n ∧ 0 < s.2.1 := by
  intro k
  induction k with
  | zero =>
    intro a b s _ hlt h
    simp only [fermatStateAt, Option.some.injEq] at h
    subst h
    simp only [Nat.cast_zero, add_zero, true_and]
    omega
  | succ k ih =>
    intro a b s ha hlt h
    rw [fermatStateAt] at h
    have h0 : 0 ≤ a * a - n := by omega
    simp only [h0, if_true, bigSqrt_of_nonneg _ h0] at h
    by_cases heq : a * a - n = n
    · simp [heq] at h
    · simp only [heq, if_false] at h
      obtain ⟨h1, h2, h3⟩ := ih (a + 1) _ s (by omega) (by nlinarith) h
      refine ⟨?_, h2, h3⟩
      rw [h1]; push_cast; ring

/-- On an odd `n` the loop reaches every evaluation of its condition. -/
theorem fermatStateAt_odd (m : Nat) :
    ∀ (k : Nat) (a b : Int), 0 ≤ a → (2 * (m : Int) + 1) < a * a →
      ∃ s, fermatStateAt (2 * (m : Int) + 1) k a (a * a - (2 * (m : Int) + 1)) b = some s := by
  intro k
  induction k with
  | zero => intro a b _ _; exact ⟨_, rfl⟩
  | succ k ih =>
    intro a b ha hlt
    rw [fermatStateAt]
    have h0 : 0 ≤ a * a - (2 * (m : Int) + 1) := by omega
    have hne : a * a - (2 * (m : Int) + 1) ≠ 2 * (m : Int) + 1 := by
      intro h
      have := sq_ne_two_mul_odd (2 * m + 1) (by omega) a
      apply this
      push_cast
      linarith
    simp only [h0, if_true, bigSqrt_of_nonneg _ h0, hne, if_false]
    exact ih (a + 1) _ (by omega) (by nlinarith)

/-- C14: for every `n ≥ 0`, at every evaluation of the loop condition of
`fermatFactorization(n)` (the `k`-th, initially with `a = floor(sqrt n) + 1` and
after each of the `k` increments of `a`), `bSquared = a*a - n` and it is
strictly positive. -/
theorem fermat_bSquared_positive (n : Int) (hn : 0 ≤ n) (k : Nat) (s : Int × Int × Int)
    (h : fermatStateAt n k ((Nat.sqrt n.toNat : Int) + 1)
      (((Nat.sqrt n.toNat : Int) + 1) * ((Nat.sqrt n.toNat : Int) + 1) - n) 0 = some s) :
    bigSqrt n = some (Nat.sqrt n.toNat : Int) ∧
      s.1 = (Nat.sqrt n.toNat : Int) + 1 + k ∧ s.2.1 = s.1 * s.1 - n ∧ 0 < s.2.1 := by
  have hlt : n < ((Nat.sqrt n.toNat : Int) + 1) * ((Nat.sqrt n.toNat : Int) + 1) := by
    have h1 := lt_start_sq n.toNat
    rw [Int.toNat_of_nonneg hn] at h1
    exact h1
  have h2 : 0 ≤ (Nat.sqrt n.toNat : Int) := Int.ofNat_nonneg _
  refine ⟨by rw [bigSqrt_of_nonneg n hn]; rfl, ?_⟩
  exact fermatStateAt_inv n k _ 0 s (by omega) hlt h

theorem fermatStateAt_143_two :
    fermatStateAt 143 2 ((Nat.sqrt (143 : Int).toNat : Int) + 1)
      (((Nat.sqrt (143 : Int).toNat : Int) + 1) * ((Nat.sqrt (143 : Int).toNat : Int) + 1) - 143) 0
      = some (14, 53, 5) := by
  have ht : Int.toNat 143 = 143 := rfl
  have hs1 : Nat.sqrt 1 = 1 := by symm; rw [Nat.eq_sqrt]; omega
  have hs26 : Nat.sqrt 26 = 5 := by symm; rw [Nat.eq_sqrt]; omega
  have h1 : bigSqrt 1 = some 1 := by
    rw [bigSqrt_of_nonneg _ (by norm_num)]; simp [hs1]
  have h26 : bigSqrt 26 = some 5 := by
    rw [bigSqrt_of_nonneg _ (by norm_num)]
    have : Int.toNat 26 = 26 := rfl
    simp [this, hs26]
  rw [ht, sqrt_143]
  norm_num [fermatStateAt, h1, h26]

/-- Witness of `fermat_bSquared_positive` at `n = 143`, `k = 2`. -/
theorem fermat_bSquared_positive_witness :
    bigSqrt 143 = some (Nat.sqrt (143 : Int).toNat : Int) ∧
      (14 : Int) = (Nat.sqrt (143 : Int).toNat : Int) + 1 + (2 : Nat) ∧
      (53 : Int) = 14 * 14 - 143 ∧ (0 : Int) < 53 :=
  fermat_bSquared_positive 143 (by decide) 2 (14, 53, 5) fermatStateAt_143_two

/-! ## The first pass of Pollard rho on an even number -/

theorem rhoStep_four : rhoStep 4 2 2 = some (1, 2, 1) := by
  norm_num [rhoStep, f, gcd_eq_of_pos]

/-- C16 (counterexample): on the even `N = 4` the first pass of the loop of
`pollardsRho` computes `x = 1`, `y = 2` and `d = gcd(1, 4) = 1`, not `2`. -/
theorem rho_even_first_pass_not_two :
    rhoStep 4 2 2 = some (1, 2, 1) ∧ (4 : Int) % 2 = 0 ∧ (1 : Int) < 4 ∧ (1 : Int) ≠ 2 :=
  ⟨rhoStep_four, by decide, by decide, by decide⟩

/-- C16 (amended): for every even `N > 1` the first pass of the loop of
`pollardsRho(N)` computes `x = f(2) = 5 mod N`, `y = f(f(2))` and
`d = gcd(|x - y|, N)`, where `x` is odd and `y` is even, so `d` is odd: it
divides `N` and is never `2`. -/
theorem rho_even_first_pass_odd (N : Int) (hN : 1 < N) (heven : N % 2 = 0) :
    ∃ x y d : Int, rhoStep N 2 2 = some (x, y, d) ∧
      x = 5 % N ∧ y = (x * x + 1) % N ∧ d = gcd |x - y| N ∧
      x % 2 = 1 ∧ y % 2 = 0 ∧ d % 2 = 1 ∧ d ∣ N ∧ d ≠ 2 := by
  have hN0 : N ≠ 0 := by omega
  have h2N : (2 : Int) ∣ N := Int.dvd_of_emod_eq_zero heven
  have hx : (5 % N) % 2 = 1 := by
    rw [Int.emod_emod_of_dvd 5 h2N]; rfl
  have hy : ((5 % N) * (5 % N) + 1) % N % 2 = 0 := by
    rw [Int.emod_emod_of_dvd _ h2N]
    have : (5 % N) * (5 % N) % 2 = 1 := by
      rw [Int.mul_emod, hx]; rfl
    omega
  have hdvd := gcd_dvd_both _ |5 % N - ((5 % N) * (5 % N) + 1) % N| N (le_refl _)
  have hodd : gcd |5 % N - ((5 % N) * (5 % N) + 1) % N| N % 2 = 1 := by
    rcases Int.emod_two_eq_zero_or_one
      (gcd |5 % N - ((5 % N) * (5 % N) + 1) % N| N) with h0 | h1
    · exfalso
      have h2 : (2 : Int) ∣ |5 % N - ((5 % N) * (5 % N) + 1) % N| :=
        dvd_trans (Int.dvd_of_emod_eq_zero h0) hdvd.1
      rw [dvd_abs] at h2
      omega
    · exact h1
  refine ⟨5 % N, ((5 % N) * (5 % N) + 1) % N, _, ?_, rfl, rfl, rfl, hx, hy, hodd, hdvd.2, ?_⟩
  · rw [rhoStep_eq N 2 2 hN0]
    simp only [fVal, dVal]
    norm_num
  · intro h
    rw [h] at hodd
    omega

/-- Witness of `rho_even_first_pass_odd` at `N = 4`. -/
theorem rho_even_first_pass_odd_witness :
    ∃ x y d : Int, rhoStep 4 2 2 = some (x, y, d) ∧
      x = 5 % 4 ∧ y = (x * x + 1) % 4 ∧ d = gcd |x - y| 4 ∧
      x % 2 = 1 ∧ y % 2 = 0 ∧ d % 2 = 1 ∧ d ∣ (4 : Int) ∧ d ≠ 2 :=
  rho_even_first_pass_odd 4 (by decide) (by decide)

/-! ## When the sequential Fermat search returns -/

theorem even_of_sq_eq_two_mul (a c : Int) (h : a * a = 2 * c) : ∃ t : Int, a = 2 * t := by
  rcases Int.emod_two_eq_zero_or_one a with h0 | h1
  · exact ⟨a / 2, by omega⟩
  · exfalso
    obtain ⟨t, ht⟩ : ∃ t, a = 2 * t + 1 := ⟨a / 2, by omega⟩
    rw [ht] at h
    have : 2 * c = 2 * (2 * t * t + 2 * t) + 1 := by linarith
    omega

/-- Descent: `a*a = 2*(b*b)` forces `b = 0`. -/
theorem sq_eq_two_mul_sq : ∀ (m : Nat) (a b : Int), b.natAbs ≤ m →
    a * a = 2 * (b * b) → b = 0 := by
  intro m
  induction m with
  | zero => intro a b hb _; omega
  | succ m ih =>
    intro a b hb h
    by_contra hb0
    obtain ⟨a', ha'⟩ := even_of_sq_eq_two_mul a (b * b) h
    have h2 : b * b = 2 * (a' * a') := by
      rw [ha'] at h; linarith
    obtain ⟨b', hb'⟩ := even_of_sq_eq_two_mul b (a' * a') h2
    have h3 : a' * a' = 2 * (b' * b') := by
      rw [hb'] at h2; linarith
    have hb'0 : b' = 0 := ih a' b' (by omega) h3
    omega

/-- When the loop is left, it is through the `break`: the candidate `c` has
`c*c = 2*n`, `bSquared = n` and `b = floor(sqrt n)`. -/
theorem fermatLoop_ret_break (n : Int) :
    ∀ (fuel : Nat) (a b : Int) (r : Int × Int × Int), 0 ≤ a → n < a * a →
      fermatLoop n fuel a (a * a - n) b = Run.ret r →
      ∃ c : Int, a ≤ c ∧ c * c = 2 * n ∧
        r = (c, n, Int.ofNat (Nat.sqrt n.toNat)) := by
  intro fuel
  induction fuel with
  | zero => intro a b r _ _ h; simp [fermatLoop] at h
  | succ fuel ih =>
    intro a b r ha hlt h
    have h0 : 0 ≤ a * a - n := by omega
    rw [fermatLoop] at h
    simp only [h0, if_true, bigSqrt_of_nonneg _ h0] at h
    by_cases heq : a * a - n = n
    · simp only [heq, if_true] at h
      refine ⟨a, le_refl _, by omega, ?_⟩
      cases h
      rfl
    · simp only [heq, if_false] at h
      obtain ⟨c, hc1, hc2, hc3⟩ := ih (a + 1) _ r (by omega) (by nlinarith) h
      exact ⟨c, by omega, hc2, hc3⟩

/-- The loop reaches the candidate `c = a + j` with `c*c = 2*n` after `j`
passes and leaves there. -/
theorem fermatLoop_reach (n : Int) :
    ∀ (j : Nat) (a b : Int), 0 ≤ a → n < a * a → (a + j) * (a + j) = 2 * n →
      (∀ fuel, j < fuel →
        fermatLoop n fuel a (a * a - n) b =
          Run.ret (a + j, n, Int.ofNat (Nat.sqrt n.toNat))) ∧
      (∀ fuel, fuel ≤ j → fermatLoop n fuel a (a * a - n) b = Run.timeout) := by
  intro j
  induction j with
  | zero =>
    intro a b ha hlt hc
    simp only [Nat.cast_zero, add_zero] at hc
    have h0 : 0 ≤ a * a - n := by omega
    have heq : a * a - n = n := by omega
    constructor
    · intro fuel hfuel
      obtain ⟨k, rfl⟩ : ∃ k, fuel = k + 1 := ⟨fuel - 1, by omega⟩
      rw [fermatLoop]
      simp only [h0, if_true, bigSqrt_of_nonneg _ h0]
      simp [heq]
    · intro fuel hfuel
      have : fuel = 0 := by omega
      subst this
      rfl
  | succ j ih =>
    intro a b ha hlt hc
    have h0 : 0 ≤ a * a - n := by omega
    have hj : 0 ≤ (j : Int) := Int.ofNat_nonneg _
    have hc' : (a + 1 + (j : Int)) * (a + 1 + (j : Int)) = 2 * n := by
      rw [← hc]; push_cast; ring
    have hne : a * a - n ≠ n := by
      intro h
      nlinarith
    obtain ⟨ih1, ih2⟩ := ih (a + 1) (Int.ofNat (Nat.sqrt (a * a - n).toNat))
      (by omega) (by nlinarith) hc'
    have e : a + ((j + 1 : Nat) : Int) = a + 1 + (j : Int) := by push_cast; ring
    constructor
    · intro fuel hfuel
      obtain ⟨k, rfl⟩ : ∃ k, fuel = k + 1 := ⟨fuel - 1, by omega⟩
      rw [fermatLoop]
      simp only [h0, if_true, bigSqrt_of_nonneg _ h0, hne, if_false]
      rw [ih1 k (by omega), e]
    · intro fuel hfuel
      rcases Nat.eq_zero_or_pos fuel with hz | hp
      · subst hz; rfl
      · obtain ⟨k, rfl⟩ : ∃ k, fuel = k + 1 := ⟨fuel - 1, by omega⟩
        rw [fermatLoop]
        simp only [h0, if_true, bigSqrt_of_nonneg _ h0, hne, if_false]
        exact ih2 k (by omega)

/-- The start of the search: `bigSqrt n` and the first candidate. -/
theorem fermat_start (n : Int) (hn : 0 ≤ n) :
    bigSqrt n = some (Int.ofNat (Nat.sqrt n.toNat)) ∧
      0 ≤ Int.ofNat (Nat.sqrt n.toNat) ∧
      n < (Int.ofNat (Nat.sqrt n.toNat) + 1) * (Int.ofNat (Nat.sqrt n.toNat) + 1) ∧
      Int.ofNat (Nat.sqrt n.toNat) * Int.ofNat (Nat.sqrt n.toNat) ≤ n := by
  refine ⟨bigSqrt_of_nonneg n hn, Int.ofNat_nonneg _, ?_, ?_⟩
  · have h1 := lt_start_sq n.toNat
    rw [Int.toNat_of_nonneg hn] at h1
    exact h1
  · have h1 := Nat.sqrt_le n.toNat
    have h2 : ((Nat.sqrt n.toNat * Nat.sqrt n.toNat : Nat) : Int) ≤ ((n.toNat : Nat) : Int) :=
      Int.ofNat_le.mpr h1
    rw [Int.toNat_of_nonneg hn] at h2
    push_cast at h2
    exact h2

/-- A returned result comes from the `break`: it is the pair `(c - b, c + b)`
with `c*c = 2*n` and `b = floor(sqrt n)`. -/
theorem fermatFactorization_ret (n : Int) (hn : 0 ≤ n) (fuel : Nat) (r : Option (Int × Int))
    (h : fermatFactorization fuel n = Run.ret r) :
    ∃ c : Int, Int.ofNat (Nat.sqrt n.toNat) + 1 ≤ c ∧ c * c = 2 * n ∧
      r = some (c - Int.ofNat (Nat.sqrt n.toNat), c + Int.ofNat (Nat.sqrt n.toNat)) := by
  obtain ⟨hs, hs0, hlt, _⟩ := fermat_start n hn
  simp only [fermatFactorization, hs] at h
  cases hl : fermatLoop n fuel (Int.ofNat (Nat.sqrt n.toNat) + 1)
      ((Int.ofNat (Nat.sqrt n.toNat) + 1) * (Int.ofNat (Nat.sqrt n.toNat) + 1) - n) 0 with
  | timeout => rw [hl] at h; simp at h
  | crash => rw [hl] at h; simp at h
  | ret s =>
    obtain ⟨c, hc1, hc2, hc3⟩ := fermatLoop_ret_break n fuel _ _ s (by omega) hlt hl
    rw [hl, hc3] at h
    have hneg : ¬ n < 0 := by omega
    simp only [hneg, if_false, Run.ret.injEq] at h
    exact ⟨c, hc1, hc2, h.symm⟩

/-- On `n = 2*k*k` with `k ≥ 1` the search returns, after the passes that lead
from `floor(sqrt n) + 1` to the candidate `2*k`. -/
theorem fermatFactorization_two_mul_sq (n k : Int) (hk : 1 ≤ k) (hnk : n = 2 * k * k) :
    ∃ passes : Nat,
      (∀ fuel, passes < fuel →
        fermatFactorization fuel n =
          Run.ret (some (2 * k - Int.ofNat (Nat.sqrt n.toNat),
            2 * k + Int.ofNat (Nat.sqrt n.toNat)))) ∧
      (∀ fuel, fuel ≤ passes → fermatFactorization fuel n = Run.timeout) := by
  have hn : 0 ≤ n := by nlinarith
  obtain ⟨hs, hs0, hlt, hle⟩ := fermat_start n hn
  set s : Int := Int.ofNat (Nat.sqrt n.toNat) with hsdef
  have hs2k : s + 1 ≤ 2 * k := by
    by_contra hcon
    have : 2 * k ≤ s := by omega
    nlinarith
  obtain ⟨j, hj⟩ : ∃ j : Nat, s + 1 + (j : Int) = 2 * k := ⟨(2 * k - (s + 1)).toNat, by omega⟩
  have hc : (s + 1 + (j : Int)) * (s + 1 + (j : Int)) = 2 * n := by
    rw [hj, hnk]; ring
  obtain ⟨h1, h2⟩ := fermatLoop_reach n j (s + 1) 0 (by omega) hlt hc
  refine ⟨j, ?_, ?_⟩
  · intro fuel hfuel
    have hneg : ¬ n < 0 := by omega
    simp only [fermatFactorization, hs, h1 fuel hfuel, hneg, if_false, hj]
  · intro fuel hfuel
    simp only [fermatFactorization, hs, h2 fuel hfuel]

/-- A square that is twice `n ≥ 1` makes `n` twice a square. -/
theorem two_mul_sq_of_sq_eq (n c : Int) (hn : 1 ≤ n) (hc : c * c = 2 * n) :
    ∃ k : Int, 1 ≤ k ∧ n = 2 * k * k := by
  obtain ⟨t, ht⟩ := even_of_sq_eq_two_mul c n hc
  have hn2 : n = 2 * t * t := by rw [ht] at hc; linarith
  have ht0 : t ≠ 0 := by
    intro h0; rw [h0] at hn2; omega
  rcases lt_or_gt_of_ne ht0 with hneg | hpos
  · exact ⟨-t, by omega, by rw [hn2]; ring⟩
  · exact ⟨t, by omega, hn2⟩

/-- C17: for every `n ≥ 1`, `fermatFactorization(n)` returns (for some number
of iterations allowed) if and only if `n = 2*k*k` for some `k ≥ 1`. On such `n`
it returns once the passes up to the candidate `a = 2*k` are allowed; a
returned result comes from the `break` taken when `bSquared = n`, that is
`a*a = 2*n`; for every other `n ≥ 1` the loop is still running whatever the
number of iterations allowed. -/
theorem fermat_terminates_iff (n : Int) (hn : 1 ≤ n) :
    ((∃ (fuel : Nat) (r : Option (Int × Int)), fermatFactorization fuel n = Run.ret r) ↔
      ∃ k : Int, 1 ≤ k ∧ n = 2 * k * k) ∧
    (∀ k : Int, 1 ≤ k → n = 2 * k * k →
      ∃ passes : Nat,
        (∀ fuel, passes < fuel →
          fermatFactorization fuel n =
            Run.ret (some (2 * k - Int.ofNat (Nat.sqrt n.toNat),
              2 * k + Int.ofNat (Nat.sqrt n.toNat)))) ∧
        (∀ fuel, fuel ≤ passes → fermatFactorization fuel n = Run.timeout)) ∧
    (∀ (fuel : Nat) (r : Option (Int × Int)), fermatFactorization fuel n = Run.ret r →
      ∃ a : Int, a * a = 2 * n ∧ a * a - n = n) ∧
    ((¬ ∃ k : Int, 1 ≤ k ∧ n = 2 * k * k) →
      ∀ fuel : Nat, fermatFactorization fuel n = Run.timeout) := by
  have hn0 : 0 ≤ n := by omega
  refine ⟨⟨?_, ?_⟩, ?_, ?_, ?_⟩
  · rintro ⟨fuel, r, h⟩
    obtain ⟨c, _, hc, _⟩ := fermatFactorization_ret n hn0 fuel r h
    exact two_mul_sq_of_sq_eq n c hn hc
  · rintro ⟨k, hk, hnk⟩
    obtain ⟨passes, h1, _⟩ := fermatFactorization_two_mul_sq n k hk hnk
    exact ⟨passes + 1, _, h1 (passes + 1) (by omega)⟩
  · intro k hk hnk
    exact fermatFactorization_two_mul_sq n k hk hnk
  · intro fuel r h
    obtain ⟨c, _, hc, _⟩ := fermatFactorization_ret n hn0 fuel r h
    exact ⟨c, hc, by omega⟩
  · intro hno fuel
    have h := fermatFactorization_timeout n.toNat (by
      intro c hc
      rw [Int.toNat_of_nonneg hn0] at hc
      exact hno (two_mul_sq_of_sq_eq n c hn hc)) fuel
    rw [Int.toNat_of_nonneg hn0] at h
    exact h

/-- Witness of `fermat_terminates_iff` at `n = 8 = 2 * 2 * 2`. -/
theorem fermat_terminates_iff_witness :
    ∃ passes : Nat,
      (∀ fuel, passes < fuel →
        fermatFactorization fuel 8 =
          Run.ret (some (2 * 2 - Int.ofNat (Nat.sqrt (8 : Int).toNat),
            2 * 2 + Int.ofNat (Nat.sqrt (8 : Int).toNat)))) ∧
      (∀ fuel, fuel ≤ passes → fermatFactorization fuel 8 = Run.timeout) :=
  (fermat_terminates_iff 8 (by decide)).2.1 2 (by decide) (by decide)

/-- C18: for every `n ≥ 1` on which `fermatFactorization(n)` returns, the
result is a non-nil pair `(p, q) = (a - b, a + b)` with `a*a = 2*n`,
`b = floor(sqrt n)` and `p*q = 2*n - b*b > n`: the product is never `n` and the
result is never `(nil, nil)`. -/
theorem fermat_result_product (n : Int) (hn : 1 ≤ n) (fuel : Nat) (r : Option (Int × Int))
    (h : fermatFactorization fuel n = Run.ret r) :
    ∃ a b : Int, bigSqrt n = some b ∧ b = Int.ofNat (Nat.sqrt n.toNat) ∧ a * a = 2 * n ∧
      r = some (a - b, a + b) ∧ (a - b) * (a + b) = 2 * n - b * b ∧ n < 2 * n - b * b ∧
      (a - b) * (a + b) ≠ n ∧ r ≠ none := by
  have hn0 : 0 ≤ n := by omega
  obtain ⟨c, _, hc, hr⟩ := fermatFactorization_ret n hn0 fuel r h
  obtain ⟨hs, _, _, hle⟩ := fermat_start n hn0
  set b : Int := Int.ofNat (Nat.sqrt n.toNat) with hb
  have hprod : (c - b) * (c + b) = 2 * n - b * b := by
    have : (c - b) * (c + b) = c * c - b * b := by ring
    rw [this, hc]
  have hbn : b * b ≠ n := by
    intro heq
    have h2 : c * c = 2 * (b * b) := by rw [heq]; exact hc
    have hb0 := sq_eq_two_mul_sq _ c b (le_refl _) h2
    rw [hb0] at heq
    omega
  have hlt : n < 2 * n - b * b := by omega
  refine ⟨c, b, hs, rfl, hc, hr, hprod, hlt, ?_, ?_⟩
  · rw [hprod]; omega
  · rw [hr]; simp

/-- Witness of `fermat_result_product` at `n = 8`, where the result is `(2, 6)`. -/
theorem fermat_result_product_witness :
    ∃ a b : Int, bigSqrt 8 = some b ∧ b = Int.ofNat (Nat.sqrt (8 : Int).toNat) ∧
      a * a = 2 * 8 ∧
      (some ((2 : Int), (6 : Int))) = some (a - b, a + b) ∧
      (a - b) * (a + b) = 2 * 8 - b * b ∧ 8 < 2 * 8 - b * b ∧
      (a - b) * (a + b) ≠ 8 ∧ (some ((2 : Int), (6 : Int))) ≠ none :=
  fermat_result_product 8 (by decide) 2 (some (2, 6)) (fermatFactorization_eight 0)

/-! ## What the parallel worker sends -/

/-- The worker sends `(c, c)` for the least candidate `c` of its range with
`c * c = n`. -/
theorem workerLoop_finds (n end_ : Int) :
    ∀ (k : Nat) (a c : Int), (c - a).toNat ≤ k → a ≤ c → c ≤ end_ → c * c = n →
      (∀ c' : Int, a ≤ c' → c' < c → c' * c' ≠ n) →
      workerLoop n end_ a (a * a - n) 0 = some (c, c) := by
  intro k
  induction k with
  | zero =>
    intro a c hk hac hce hc _
    have hca : c = a := by omega
    subst hca
    rw [workerLoop_eq]
    have h0 : c * c - n = 0 := by omega
    simp [hce, h0]
  | succ k ih =>
    intro a c hk hac hce hc hleast
    rw [workerLoop_eq]
    have hae : a ≤ end_ := by omega
    by_cases hca : c = a
    · subst hca
      have h0 : c * c - n = 0 := by omega
      simp [hce, h0]
    · have hne : a * a - n ≠ 0 := by
        have := hleast a (le_refl _) (by omega)
        omega
      simp only [hae, if_true, mul_zero, hne, if_false]
      exact ih (a + 1) c (by omega) (by omega) hce hc
        (fun c' h1 h2 => hleast c' (by omega) h2)

/-- In every pass of the worker's loop the local `b` is `0`: from `b = 0` the
statement `b.Mul(b, b)` leaves `0`, and the test compares `bSquared` with `0`. -/
theorem workerLoop_b_zero (n end_ a bSquared : Int) :
    workerLoop n end_ a bSquared 0 =
      if a ≤ end_ then
        if bSquared = 0 then some (a, a)
        else workerLoop n end_ (a + 1) ((a + 1) * (a + 1) - n) 0
      else none := by
  rw [workerLoop_eq]
  simp

/-- C19: for every `n` and every range `[start, end]`, the worker
`parallelFermatFactorization` sends a pair if and only if some integer `a` of
`[start, end]` has `a*a = n`, and the pair is then `(a, a)` (for the least such
`a`): its local `b` is `0` in every pass, so the test compares `a*a - n`
with `0`. -/
theorem worker_sends_iff_square (n start end_ : Int) :
    ((∃ pr, parallelFermatFactorization n start end_ = some pr) ↔
      ∃ a : Int, start ≤ a ∧ a ≤ end_ ∧ a * a = n) ∧
    (∀ pr, parallelFermatFactorization n start end_ = some pr →
      ∃ a : Int, start ≤ a ∧ a ≤ end_ ∧ a * a = n ∧ pr = (a, a) ∧
        ∀ c : Int, start ≤ c → c < a → c * c ≠ n) ∧
    (∀ a bSquared : Int,
      workerLoop n end_ a bSquared 0 =
        if a ≤ end_ then
          if bSquared = 0 then some (a, a)
          else workerLoop n end_ (a + 1) ((a + 1) * (a + 1) - n) 0
        else none) := by
  have hfind : ∀ a : Int, start ≤ a → a ≤ end_ → a * a = n →
      ∃ c : Int, start ≤ c ∧ c ≤ a ∧ c * c = n ∧
        (∀ c' : Int, start ≤ c' → c' < c → c' * c' ≠ n) ∧
        parallelFermatFactorization n start end_ = some (c, c) := by
    intro a h1 h2 h3
    -- the least candidate with `c * c = n`, by induction on the distance to `start`
    have hleast : ∀ (k : Nat) (a : Int), (a - start).toNat ≤ k → start ≤ a → a * a = n →
        ∃ c : Int, start ≤ c ∧ c ≤ a ∧ c * c = n ∧
          ∀ c' : Int, start ≤ c' → c' < c → c' * c' ≠ n := by
      intro k
      induction k with
      | zero =>
        intro a hk ha hsq
        exact ⟨a, ha, le_refl _, hsq, fun c' h1 h2 => by omega⟩
      | succ k ih =>
        intro a hk ha hsq
        by_cases hex : ∃ c' : Int, start ≤ c' ∧ c' < a ∧ c' * c' = n
        · obtain ⟨c', hc1, hc2, hc3⟩ := hex
          obtain ⟨c, h1, h2, h3, h4⟩ := ih c' (by omega) hc1 hc3
          exact ⟨c, h1, by omega, h3, h4⟩
        · exact ⟨a, ha, le_refl _, hsq, fun c' h1 h2 h3 => hex ⟨c', h1, h2, h3⟩⟩
    obtain ⟨c, hc1, hc2, hc3, hc4⟩ := hleast _ a (le_refl _) h1 h3
    exact ⟨c, hc1, hc2, hc3, hc4,
      workerLoop_finds n end_ _ start c (le_refl _) hc1 (by omega) hc3 hc4⟩
  refine ⟨⟨?_, ?_⟩, ?_, workerLoop_b_zero n end_⟩
  · rintro ⟨pr, h⟩
    obtain ⟨c, hc1, hc2, hc3, _⟩ := workerLoop_some n end_ _ start pr (le_refl _) h
    exact ⟨c, hc1, hc2, hc3⟩
  · rintro ⟨a, h1, h2, h3⟩
    obtain ⟨c, _, _, _, _, hc⟩ := hfind a h1 h2 h3
    exact ⟨_, hc⟩
  · intro pr h
    obtain ⟨a, ha1, ha2, ha3, _⟩ := workerLoop_some n end_ _ start pr (le_refl _) h
    obtain ⟨c, hc1, hc2, hc3, hc4, hc⟩ := hfind a ha1 ha2 ha3
    rw [h] at hc
    have hpr : pr = (c, c) := by simpa using hc
    exact ⟨c, hc1, by omega, hc3, hpr, hc4⟩

theorem worker_16 : parallelFermatFactorization 16 4 17 = some (4, 4) := by
  rw [parallelFermatFactorization, workerLoop_b_zero]
  norm_num

/-- Witness of `worker_sends_iff_square` at `n = 16`, range `[4, 17]`. -/
theorem worker_sends_iff_square_witness :
    ∃ a : Int, 4 ≤ a ∧ a ≤ 17 ∧ a * a = 16 ∧ ((4 : Int), (4 : Int)) = (a, a) ∧
      ∀ c : Int, 4 ≤ c → c < a → c * c ≠ 16 :=
  (worker_sends_iff_square 16 4 17).2.1 (4, 4) worker_16

/-! ## The small primes of generation.go -/

theorem isPrimeLoop_eq (number i : Int) :
    isPrimeLoop number i =
      if i * i ≤ number then
        if Int.tmod number i = 0 then false else isPrimeLoop number (i + 1)
      else true := by
  rw [isPrimeLoop]

/-- Trial division accepts every prime number. -/
theorem isPrimeLoop_prime (p : Nat) (hp : p.Prime) :
    ∀ (k : Nat) (i : Int), 2 ≤ i → ((p : Int) + 1 - i).toNat ≤ k →
      isPrimeLoop p i = true := by
  intro k
  induction k with
  | zero =>
    intro i hi hk
    rw [isPrimeLoop_eq]
    have : ¬ i * i ≤ (p : Int) := by
      intro h
      have : (p : Int) < i := by omega
      nlinarith
    simp [this]
  | succ k ih =>
    intro i hi hk
    rw [isPrimeLoop_eq]
    by_cases hsq : i * i ≤ (p : Int)
    · have hnd : Int.tmod (p : Int) i ≠ 0 := by
        intro h0
        have hdvd : i ∣ (p : Int) := Int.dvd_of_tmod_eq_zero h0
        have hdvd' : i.toNat ∣ p := by
          have : ((i.toNat : Nat) : Int) ∣ (p : Int) := by
            rw [Int.toNat_of_nonneg (by omega)]; exact hdvd
          exact Int.natCast_dvd_natCast.mp this
        rcases (Nat.dvd_prime hp).mp hdvd' with h1 | h1
        · omega
        · have hip : i = (p : Int) := by omega
          rw [hip] at hsq
          have hp2 : (2 : Int) ≤ p := by exact_mod_cast hp.two_le
          nlinarith
      simp only [hsq, if_true, hnd, if_false]
      exact ih (i + 1) (by omega) (by omega)
    · simp [hsq]

theorem isPrime_prime (p : Nat) (hp : p.Prime) : isPrime p = true :=
  isPrimeLoop_prime p hp _ 2 (by omega) (le_refl _)

theorem isPrime_two : isPrime 2 = true :=
  isPrime_prime 2 Nat.prime_two

/-- The loop of `generateFirstNPrimes` ends, since there is always a larger
prime, and it only appends to `primes`. -/
theorem genPrimesLoop_returns (n : Int) :
    ∀ (need : Nat) (i : Int) (primes : List Int), 2 ≤ i →
      (n - (primes.length : Int)).toNat ≤ need →
      ∃ (fuel0 : Nat) (more : List Int),
        ∀ fuel, fuel0 ≤ fuel → genPrimesLoop n fuel i primes = Run.ret (primes ++ more) := by
  intro need
  induction need with
  | zero =>
    intro i primes _ hneed
    refine ⟨1, [], ?_⟩
    intro fuel hfuel
    obtain ⟨k, rfl⟩ : ∃ k, fuel = k + 1 := ⟨fuel - 1, by omega⟩
    have : ¬ (primes.length : Int) < n := by omega
    simp [genPrimesLoop, this]
  | succ need ih =>
    intro i primes hi hneed
    by_cases hlen : (primes.length : Int) < n
    · obtain ⟨p, hpi, hp⟩ := Nat.exists_infinite_primes i.toNat
      have inner : ∀ (d : Nat) (j : Int), 2 ≤ j → j + (d : Int) = (p : Int) →
          ∃ (fuel0 : Nat) (more : List Int),
            ∀ fuel, fuel0 ≤ fuel → genPrimesLoop n fuel j primes = Run.ret (primes ++ more) := by
        intro d
        induction d with
        | zero =>
          intro j hj hjp
          have hjp' : j = (p : Int) := by simpa using hjp
          have hprime : isPrime j = true := by rw [hjp']; exact isPrime_prime p hp
          obtain ⟨fuel0, more, hrun⟩ := ih (j + 1) (primes ++ [j]) (by omega)
            (by simp only [List.length_append, List.length_singleton]; push_cast; omega)
          refine ⟨fuel0 + 1, [j] ++ more, ?_⟩
          intro fuel hfuel
          obtain ⟨k, rfl⟩ : ∃ k, fuel = k + 1 := ⟨fuel - 1, by omega⟩
          simp only [genPrimesLoop, hlen, if_true, hprime]
          rw [hrun k (by omega), List.append_assoc]
        | succ d ihd =>
          intro j hj hjp
          by_cases hprime : isPrime j = true
          · obtain ⟨fuel0, more, hrun⟩ := ih (j + 1) (primes ++ [j]) (by omega)
              (by simp only [List.length_append, List.length_singleton]; push_cast; omega)
            refine ⟨fuel0 + 1, [j] ++ more, ?_⟩
            intro fuel hfuel
            obtain ⟨k, rfl⟩ : ∃ k, fuel = k + 1 := ⟨fuel - 1, by omega⟩
            simp only [genPrimesLoop, hlen, if_true, hprime]
            rw [hrun k (by omega), List.append_assoc]
          · obtain ⟨fuel0, more, hrun⟩ := ihd (j + 1) (by omega) (by push_cast at hjp ⊢; omega)
            refine ⟨fuel0 + 1, more, ?_⟩
            intro fuel hfuel
            obtain ⟨k, rfl⟩ : ∃ k, fuel = k + 1 := ⟨fuel - 1, by omega⟩
            simp only [genPrimesLoop, hlen, if_true, hprime]
            exact hrun k (by omega)
      exact inner (p - i.toNat) i hi (by omega)
    · refine ⟨1, [], ?_⟩
      intro fuel hfuel
      obtain ⟨k, rfl⟩ : ∃ k, fuel = k + 1 := ⟨fuel - 1, by omega⟩
      simp [genPrimesLoop, hlen]

/-- The function `generateFirstNPrimes(100)` returns a slice that starts
with `2`. -/
theorem generateFirstNPrimes_head :
    ∃ (fuel0 : Nat) (rest : List Int),
      ∀ fuel, fuel0 ≤ fuel → generateFirstNPrimes fuel 100 = Run.ret (2 :: rest) := by
  obtain ⟨fuel0, more, hrun⟩ := genPrimesLoop_returns 100 99 3 [2] (by omega) (by simp)
  refine ⟨fuel0 + 1, more, ?_⟩
  intro fuel hfuel
  obtain ⟨k, rfl⟩ : ∃ k, fuel = k + 1 := ⟨fuel - 1, by omega⟩
  simp only [generateFirstNPrimes, genPrimesLoop, List.length_nil, Nat.cast_zero,
    isPrime_two, if_true]
  have h := hrun k (by omega)
  norm_num at h ⊢
  exact h

/-- C20: `generateFirstNPrimes(100)` returns a slice whose first element is
`2`, so `hasSmallFactors(m)` returns `true` for every even integer `m`, hence
for `p - 1` of every odd prime `p`: the test of `generatePMinusOneComposite`
accepts every odd prime. -/
theorem hasSmallFactors_even :
    ∃ (fuel0 : Nat) (rest : List Int), ∀ fuel, fuel0 ≤ fuel →
      generateFirstNPrimes fuel 100 = Run.ret (2 :: rest) ∧
      (∀ m : Int, m % 2 = 0 → hasSmallFactors fuel m = Run.ret true) ∧
      (∀ p : Nat, p.Prime → p ≠ 2 → pMinusOneAccepted fuel (p : Int) = Run.ret true) := by
  obtain ⟨fuel0, rest, hgen⟩ := generateFirstNPrimes_head
  refine ⟨fuel0, rest, ?_⟩
  intro fuel hfuel
  have heven : ∀ m : Int, m % 2 = 0 → hasSmallFactors fuel m = Run.ret true := by
    intro m hm
    simp [hasSmallFactors, hgen fuel hfuel, hasSmallFactorsLoop, hm]
  refine ⟨hgen fuel hfuel, heven, ?_⟩
  intro p hp hp2
  have hodd : p % 2 = 1 := by
    rcases hp.eq_two_or_odd with h | h
    · exact absurd h hp2
    · exact h
  exact heven ((p : Int) - 1) (by omega)

/-- Witness of `hasSmallFactors_even` at `m = 540` and the odd prime `p = 541`. -/
theorem hasSmallFactors_even_witness :
    ∃ (fuel0 : Nat) (rest : List Int), ∀ fuel, fuel0 ≤ fuel →
      generateFirstNPrimes fuel 100 = Run.ret (2 :: rest) ∧
      hasSmallFactors fuel 540 = Run.ret true ∧
      pMinusOneAccepted fuel ((541 : Nat) : Int) = Run.ret true := by
  obtain ⟨fuel0, rest, h⟩ := hasSmallFactors_even
  exact ⟨fuel0, rest, fun fuel hfuel =>
    ⟨(h fuel hfuel).1, (h fuel hfuel).2.1 540 (by decide),
      (h fuel hfuel).2.2 541 (by norm_num) (by decide)⟩⟩

end Intfact
